import Mathlib

/-!
Verification of the `gamers` two-player game solver core.

This file shallowly embeds the Rust sources of `solver_core`
(`game.rs`, `utils.rs`, `solvers/minimax.rs`, `games/ttt.rs`,
`games/c4_bitboard.rs`) into Lean and proves / refutes the frozen claims
about the natural-language specification.

Modelling conventions:
* `i32` values are modelled as `Int`; every value actually produced by the
  program (terminal values in {-1,0,1}, their 1 000 000 scalings, and the
  bounded Connect-Four heuristic) is far inside the `i32` range, and the
  search code only copies and compares these values, so no wrap-around can
  occur on the modelled paths.  The literals `i32::MIN` / `i32::MAX` are
  modelled exactly (`intMin` / `intMax`).
* `u64` bitboards are modelled as `Nat` (bitwise `&&& ||| ^^^ >>> <<<`
  agree with the machine operations for values `< 2^64`).
* The one place where `u32` arithmetic can wrap — the unguarded
  `depth - 1` in `minimax_best_move_ab_depth_inner` — is modelled with
  explicit mod-`2^32` semantics (`u32_wrapping_sub_one`).
* `minimax_value` and `minimax_value_ab` recurse until terminal states;
  the Rust functions terminate only on finite game trees.  They are
  embedded with an explicit fuel parameter; the decidable predicate
  `SearchOK` states that the tree below a state is exhausted within the
  given fuel (plus the local well-formedness the code's `unwrap`s assume),
  which makes the fuel value irrelevant.  `minimax_value_ab_depth` needs
  no fuel: it is structurally recursive on its own `depth` argument,
  exactly as in the source.
* Rust's stable `sort_by_key(|m| Reverse(key(m)))` is modelled by the
  stable `List.mergeSort` with the corresponding comparator; a stable sort
  is uniquely determined by comparator and input, so this is faithful.
-/

/-- `Player` from `game.rs`: the two players. -/
inductive Player where
  | Player1
  | Player2
deriving DecidableEq, Repr

/-- `opposite_player` from `utils.rs`. -/
def opposite_player (p : Player) : Player :=
  match p with
  | Player.Player1 => Player.Player2
  | Player.Player2 => Player.Player1

/-- The `GameState` trait from `game.rs`, bundled as a structure: a game is a
state type, a move type, and the seven trait methods.  `heuristic_value` and
`move_ordering_key` carry the per-game overrides (or the trait defaults). -/
structure Game where
  State : Type
  Move : Type
  current_player : State → Player
  legal_moves : State → List Move
  apply_move : State → Move → State
  is_terminal : State → Bool
  terminal_value : State → Option Int
  heuristic_value : State → Int
  move_ordering_key : State → Move → Int

/-- `i32::MIN`. -/
def intMin : Int := -(2 ^ 31)

/-- `i32::MAX`. -/
def intMax : Int := 2 ^ 31 - 1

/-- The move list explored by all alpha-beta functions:
`moves.sort_by_key(|m| std::cmp::Reverse(state.move_ordering_key(m)))`,
i.e. a stable sort putting higher `move_ordering_key` first. -/
def sortedMoves (g : Game) (s : g.State) : List g.Move :=
  (g.legal_moves s).mergeSort
    (fun a b => decide (g.move_ordering_key s b ≤ g.move_ordering_key s a))

/-- The `for mv in &moves { ... if alpha >= beta { break } }` loop shared by
`minimax_value_ab` and `minimax_value_ab_depth` in `minimax.rs`, with the
recursive call abstracted as `eval`.  The accumulators are `value` and the
window `alpha`,`beta`; in the maximizing branch `value` and `alpha` are
raised, in the minimizing branch `value` and `beta` are lowered, and the loop
breaks as soon as `alpha >= beta`. -/
def abLoop (g : Game) (s : g.State) (eval : g.State → Int → Int → Int)
    (maximizing : Bool) :
    List g.Move → Int → Int → Int → Int
  | [], value, _, _ => value
  | mv :: rest, value, alpha, beta =>
    let child_value := eval (g.apply_move s mv) alpha beta
    if maximizing then
      let value' := max value child_value
      let alpha' := max alpha value'
      if beta ≤ alpha' then value'
      else abLoop g s eval maximizing rest value' alpha' beta
    else
      let value' := min value child_value
      let beta' := min beta value'
      if beta' ≤ alpha then value'
      else abLoop g s eval maximizing rest value' alpha beta'

/-- `minimax_value` from `minimax.rs`, with fuel.  At a terminal state it
returns `terminal_value().unwrap()` (modelled `getD 0`; `SearchOK` rules the
`None` case out).  Otherwise it maps the recursion over `legal_moves()` and
takes `max()`/`min()` according to the current player (`getD 0` models the
`unwrap` of an empty iterator, again ruled out by `SearchOK`).  Fuel `0` on a
non-terminal state returns junk `0`; `SearchOK` guarantees enough fuel. -/
def minimax_value (g : Game) : Nat → g.State → Int
  | 0, s => if g.is_terminal s then (g.terminal_value s).getD 0 else 0
  | n + 1, s =>
    if g.is_terminal s then (g.terminal_value s).getD 0
    else
      let vals := (g.legal_moves s).map
        (fun mv => minimax_value g n (g.apply_move s mv))
      match g.current_player s with
      | Player.Player1 => vals.max?.getD 0
      | Player.Player2 => vals.min?.getD 0

/-- `minimax_value_ab` from `minimax.rs`, with fuel: terminal states return
`terminal_value().unwrap()`; otherwise the sorted moves are explored by the
alpha-beta loop starting from `value = i32::MIN` (maximizing) or `i32::MAX`
(minimizing). -/
def minimax_value_ab (g : Game) : Nat → g.State → Int → Int → Int
  | 0, s, _, _ => if g.is_terminal s then (g.terminal_value s).getD 0 else 0
  | n + 1, s, alpha, beta =>
    if g.is_terminal s then (g.terminal_value s).getD 0
    else
      let maximizing := g.current_player s == Player.Player1
      abLoop g s (minimax_value_ab g n) maximizing (sortedMoves g s)
        (if maximizing then intMin else intMax) alpha beta

/-- `minimax_value_ab_root`: the alpha-beta search from the full window. -/
def minimax_value_ab_root (g : Game) (n : Nat) (s : g.State) : Int :=
  minimax_value_ab g n s intMin intMax

/-- `minimax_value_ab_depth` from `minimax.rs`.  No fuel is needed: as in the
source, the only recursive call is at `depth - 1`, so the function is
structurally recursive on `depth`.  It first branches on
`if let Some(v) = state.terminal_value()` (returning `v * 1_000_000`), then on
`depth == 0` (returning `state.heuristic_value()`), then runs the alpha-beta
loop over the sorted moves. -/
def minimax_value_ab_depth (g : Game) : Nat → g.State → Int → Int → Int
  | 0, s, _, _ =>
    match g.terminal_value s with
    | some v => v * 1000000
    | none => g.heuristic_value s
  | depth + 1, s, alpha, beta =>
    match g.terminal_value s with
    | some v => v * 1000000
    | none =>
      let maximizing := g.current_player s == Player.Player1
      abLoop g s (minimax_value_ab_depth g depth) maximizing (sortedMoves g s)
        (if maximizing then intMin else intMax) alpha beta

/-- `minimax_value_ab_depth_root`: full-window wrapper. -/
def minimax_value_ab_depth_root (g : Game) (depth : Nat) (s : g.State) : Int :=
  minimax_value_ab_depth g depth s intMin intMax

/-- The move-selection loop of `minimax_best_move` (no pruning, no sorting):
tracks `best_value` and `best_move`, replacing them whenever a strictly
better child value appears; finally returns `best_move.map(|m| (m, best_value))`. -/
def bestLoopPlain (g : Game) (s : g.State) (eval : g.State → Int)
    (maximizing : Bool) :
    List g.Move → Int → Option g.Move → Option (g.Move × Int)
  | [], best_value, best_move => best_move.map (fun m => (m, best_value))
  | mv :: rest, best_value, best_move =>
    let child_value := eval (g.apply_move s mv)
    let is_better :=
      if maximizing then best_value < child_value else child_value < best_value
    if is_better then bestLoopPlain g s eval maximizing rest child_value (some mv)
    else bestLoopPlain g s eval maximizing rest best_value best_move

/-- `minimax_best_move` from `minimax.rs`, with fuel for the `minimax_value`
calls on the children. -/
def minimax_best_move (g : Game) (n : Nat) (s : g.State) :
    Option (g.Move × Int) :=
  let moves := g.legal_moves s
  if moves.isEmpty then none
  else
    let maximizing := g.current_player s == Player.Player1
    bestLoopPlain g s (fun t => minimax_value g n t) maximizing moves
      (if maximizing then intMin else intMax) none

/-- The move-selection loop shared by `minimax_best_move_ab_inner` and
`minimax_best_move_ab_depth_inner`: like `bestLoopPlain` but it also narrows
the window with `best_value` and breaks when `alpha >= beta`. -/
def bestLoopAB (g : Game) (s : g.State) (eval : g.State → Int → Int → Int)
    (maximizing : Bool) :
    List g.Move → Int → Option g.Move → Int → Int → Option (g.Move × Int)
  | [], best_value, best_move, _, _ => best_move.map (fun m => (m, best_value))
  | mv :: rest, best_value, best_move, alpha, beta =>
    let child_value := eval (g.apply_move s mv) alpha beta
    let is_better :=
      if maximizing then best_value < child_value else child_value < best_value
    let best_value' := if is_better then child_value else best_value
    let best_move' := if is_better then some mv else best_move
    let alpha' := if maximizing then max alpha best_value' else alpha
    let beta' := if maximizing then beta else min beta best_value'
    if beta' ≤ alpha' then best_move'.map (fun m => (m, best_value'))
    else bestLoopAB g s eval maximizing rest best_value' best_move' alpha' beta'

/-- `minimax_best_move_ab_inner` from `minimax.rs`, with fuel for the
`minimax_value_ab` calls on the children. -/
def minimax_best_move_ab_inner (g : Game) (n : Nat) (s : g.State)
    (alpha beta : Int) : Option (g.Move × Int) :=
  if (g.legal_moves s).isEmpty then none
  else
    let maximizing := g.current_player s == Player.Player1
    bestLoopAB g s (minimax_value_ab g n) maximizing (sortedMoves g s)
      (if maximizing then intMin else intMax) none alpha beta

/-- `minimax_best_move_ab`: full-window wrapper. -/
def minimax_best_move_ab (g : Game) (n : Nat) (s : g.State) :
    Option (g.Move × Int) :=
  minimax_best_move_ab_inner g n s intMin intMax

/-- The `u32` subtraction `depth - 1` that `minimax_best_move_ab_depth_inner`
performs with no `depth == 0` guard: wrapping (release-mode) semantics,
`(d - 1) mod 2^32`.  (A debug build panics on the underflow instead.) -/
def u32_wrapping_sub_one (d : Nat) : Nat := (d + (2 ^ 32 - 1)) % 2 ^ 32

/-- `minimax_best_move_ab_depth_inner` from `minimax.rs`.  Note that the
children are evaluated at `depth - 1` in `u32` arithmetic *without* first
checking `depth == 0` — see `u32_wrapping_sub_one`. -/
def minimax_best_move_ab_depth_inner (g : Game) (s : g.State) (depth : Nat)
    (alpha beta : Int) : Option (g.Move × Int) :=
  if (g.legal_moves s).isEmpty then none
  else
    let maximizing := g.current_player s == Player.Player1
    bestLoopAB g s (minimax_value_ab_depth g (u32_wrapping_sub_one depth))
      maximizing (sortedMoves g s)
      (if maximizing then intMin else intMax) none alpha beta

/-- `minimax_best_move_ab_depth`: full-window wrapper. -/
def minimax_best_move_ab_depth (g : Game) (s : g.State) (depth : Nat) :
    Option (g.Move × Int) :=
  minimax_best_move_ab_depth_inner g s depth intMin intMax

/-! ## Tic-Tac-Toe (`games/ttt.rs`) -/

/-- `Cell` from `ttt.rs`. -/
inductive Cell where
  | Empty
  | X
  | O
deriving DecidableEq, Repr

/-- `WIN_LINES` from `ttt.rs`: the 8 winning index triples. -/
def WIN_LINES : List (Nat × Nat × Nat) :=
  [(0, 1, 2), (3, 4, 5), (6, 7, 8),
   (0, 3, 6), (1, 4, 7), (2, 5, 8),
   (0, 4, 8), (2, 4, 6)]

/-- `TicTacToeState` from `ttt.rs`: a `[Cell; 9]` board (a length-9 list)
and the player to move. -/
structure TicTacToeState where
  board : { l : List Cell // l.length = 9 }
  current_player : Player
deriving DecidableEq

/-- `TicTacToeMove` from `ttt.rs`: a cell index (a `u8` in the source;
the legal ones are `0..=8`). -/
structure TicTacToeMove where
  index : Nat
deriving DecidableEq, Repr

/-- Board indexing `self.board[i]` (all indices the code uses are `< 9`). -/
def TicTacToeState.cellAt (s : TicTacToeState) (i : Nat) : Cell :=
  s.board.1.getD i Cell.Empty

/-- `TicTacToeState::new`: empty board, `Player1` to move. -/
def TicTacToeState.new : TicTacToeState :=
  ⟨⟨List.replicate 9 Cell.Empty, by decide⟩, Player.Player1⟩

/-- The per-character closure inside `TicTacToeState::from_str`:
`'X' => X, 'O' => O, '.' => Empty`, anything else is an error.  (The Rust
`match` on char literals is this if-chain.) -/
def tttParseCell (n : Char) : Except String Cell :=
  if n = 'X' then Except.ok Cell.X
  else if n = 'O' then Except.ok Cell.O
  else if n = '.' then Except.ok Cell.Empty
  else Except.error ("Invalid character: " ++ toString n)

/-- The `.map(tttParseCell).collect::<Result<Vec<Cell>, String>>()` step of
`from_str`: parse each char, short-circuiting on the first error. -/
def collectCells : List Char → Except String (List Cell)
  | [] => Except.ok []
  | n :: rest =>
    match tttParseCell n with
    | Except.error e => Except.error e
    | Except.ok c =>
      match collectCells rest with
      | Except.error e => Except.error e
      | Except.ok cs => Except.ok (c :: cs)

/-- `TicTacToeState::from_str`: map the chars through `tttParseCell`, collect
short-circuiting on the first error, then `try_into` a 9-element array,
failing on any other length. -/
def TicTacToeState.from_str (repr : String) (current_player : Player) :
    Except String TicTacToeState :=
  match collectCells repr.data with
  | Except.error e => Except.error e
  | Except.ok cells =>
    if h : cells.length = 9 then
      Except.ok ⟨⟨cells, h⟩, current_player⟩
    else
      Except.error ("Expected 9 cells, got " ++ toString cells.length)

/-- `legal_moves` for Tic-Tac-Toe: the indices of the `Empty` cells, in board
order (`iter().enumerate().filter_map(...)`). -/
def TicTacToeState.legal_moves (s : TicTacToeState) : List TicTacToeMove :=
  s.board.1.enum.filterMap
    (fun p => if p.2 = Cell.Empty then some ⟨p.1⟩ else none)

/-- `apply_move` for Tic-Tac-Toe: copy the board, write the current player's
mark at `mv.index`, flip the player.  (The source indexes the array directly
and assumes the move legal; `List.set` is its total counterpart.) -/
def TicTacToeState.apply_move (s : TicTacToeState) (mv : TicTacToeMove) :
    TicTacToeState :=
  let mark :=
    match s.current_player with
    | Player.Player1 => Cell.X
    | Player.Player2 => Cell.O
  ⟨⟨s.board.1.set mv.index mark, by rw [List.length_set]; exact s.board.2⟩,
   opposite_player s.current_player⟩

/-- The winning-line test shared by `is_terminal` and `terminal_value`:
`board[a] == board[b] && board[b] == board[c] && board[a] != Empty`. -/
def TicTacToeState.winLine (s : TicTacToeState) (t : Nat × Nat × Nat) : Bool :=
  s.cellAt t.1 == s.cellAt t.2.1 && s.cellAt t.2.1 == s.cellAt t.2.2 &&
    s.cellAt t.1 != Cell.Empty

/-- `is_terminal` for Tic-Tac-Toe: some line is won, or all cells are filled. -/
def TicTacToeState.is_terminal (s : TicTacToeState) : Bool :=
  WIN_LINES.any (fun t => s.winLine t) ||
    s.board.1.all (fun cell => cell != Cell.Empty)

/-- `terminal_value` for Tic-Tac-Toe: the first winning line decides
(+1 for X, -1 for O; the `Empty` arm is the source's `unreachable!()`,
modelled as junk `0`), else `Some 0` on a full board, else `None`. -/
def TicTacToeState.terminal_value (s : TicTacToeState) : Option Int :=
  match WIN_LINES.find? (fun t => s.winLine t) with
  | some t =>
    some (match s.cellAt t.1 with
      | Cell.X => 1
      | Cell.O => -1
      | Cell.Empty => 0)
  | none =>
    if s.board.1.all (fun cell => cell != Cell.Empty) then some 0 else none

/-- `move_ordering_key` for Tic-Tac-Toe: center 3, corners 2, edges 1. -/
def TicTacToeState.move_ordering_key (_s : TicTacToeState)
    (mv : TicTacToeMove) : Int :=
  match mv.index with
  | 4 => 3
  | 0 => 2
  | 2 => 2
  | 6 => 2
  | 8 => 2
  | _ => 1

/-- `cell_to_char` from `ttt.rs`. -/
def cell_to_char (c : Cell) : Char :=
  match c with
  | Cell.Empty => '.'
  | Cell.X => 'X'
  | Cell.O => 'O'

/-- The `GameState` impl for `TicTacToeState` (the trait's default
`heuristic_value`, `terminal_value().unwrap_or(0)`, is not overridden). -/
def tttGame : Game where
  State := TicTacToeState
  Move := TicTacToeMove
  current_player := TicTacToeState.current_player
  legal_moves := TicTacToeState.legal_moves
  apply_move := TicTacToeState.apply_move
  is_terminal := TicTacToeState.is_terminal
  terminal_value := TicTacToeState.terminal_value
  heuristic_value := fun s => (TicTacToeState.terminal_value s).getD 0
  move_ordering_key := TicTacToeState.move_ordering_key

/-! ## Connect Four bitboard (`games/c4_bitboard.rs`) -/

/-- `ROWS` from `c4_bitboard.rs`. -/
def ROWS : Nat := 6

/-- `COLS` from `c4_bitboard.rs`. -/
def COLS : Nat := 7

/-- `BITS_PER_COL = ROWS + 1`. -/
def BITS_PER_COL : Nat := ROWS + 1

/-- `WIN_LENGTH` from `c4_bitboard.rs`. -/
def WIN_LENGTH : Nat := 4

/-- `COL_WEIGHTS` from `c4_bitboard.rs`. -/
def COL_WEIGHTS : List Int := [3, 4, 5, 7, 5, 4, 3]

/-- `BitboardState` from `c4_bitboard.rs`: two `u64` bitboards, the
per-column `[u8; 7]` height array, and the player to move. -/
structure BitboardState where
  player_bb : Nat
  mask_bb : Nat
  heights : { l : List Nat // l.length = 7 }
  current_player : Player
deriving DecidableEq

/-- `BitboardState::new`. -/
def BitboardState.new : BitboardState :=
  ⟨0, 0, ⟨List.replicate 7 0, by decide⟩, Player.Player1⟩

/-- `next_bit`: mask of the next empty cell of `col`,
`1 << (col * BITS_PER_COL + heights[col])`. -/
def BitboardState.next_bit (s : BitboardState) (col : Nat) : Nat :=
  1 <<< (col * BITS_PER_COL + s.heights.1.getD col 0)

/-- `idx(row, col) = col * BITS_PER_COL + row`. -/
def BitboardState.idx (row col : Nat) : Nat :=
  col * BITS_PER_COL + row

/-- `apply_column_move`: set the new bit in `mask_bb` (and in `player_bb` if
Player1 moved), bump the column height, flip the player. -/
def BitboardState.apply_column_move (s : BitboardState) (col : Nat) :
    BitboardState :=
  let next_move := s.next_bit col
  let new_mask_bb := s.mask_bb ||| next_move
  let new_heights := s.heights.1.set col (s.heights.1.getD col 0 + 1)
  let new_player_bb :=
    match s.current_player with
    | Player.Player1 => s.player_bb ||| next_move
    | Player.Player2 => s.player_bb
  ⟨new_player_bb, new_mask_bb,
   ⟨new_heights, by rw [List.length_set]; exact s.heights.2⟩,
   opposite_player s.current_player⟩

/-- `p2_bb`: Player2's discs, `mask_bb ^ player_bb`. -/
def BitboardState.p2_bb (s : BitboardState) : Nat :=
  s.mask_bb ^^^ s.player_bb

/-- `has_run`: the shift-doubling test for four set bits at stride `shift`:
`x = bb & (bb >> shift); (x & (x >> 2*shift)) != 0`. -/
def BitboardState.has_run (bb shift : Nat) : Bool :=
  let x := bb &&& (bb >>> shift)
  (x &&& (x >>> (2 * shift))) != 0

/-- `check_win`: a 4-in-a-row in any of the four directions, via `has_run`
with shifts 1, `BITS_PER_COL`, `BITS_PER_COL + 1`, `BITS_PER_COL - 1`.
(The Rust method takes `&self` but never uses it.) -/
def BitboardState.check_win (bb : Nat) : Bool :=
  BitboardState.has_run bb 1 ||
    BitboardState.has_run bb BITS_PER_COL ||
    BitboardState.has_run bb (BITS_PER_COL + 1) ||
    BitboardState.has_run bb (BITS_PER_COL - 1)

/-- `is_full`: every column height equals `ROWS`. -/
def BitboardState.is_full (s : BitboardState) : Bool :=
  s.heights.1.all (fun h => h == ROWS)

/-- `count_player_chips`: `(mask & board).count_ones()`. -/
def BitboardState.count_player_chips (board mask : Nat) : Nat :=
  ((mask &&& board).bits.count true)

/-- `window_mask`: OR of the four cell bits of a window. -/
def BitboardState.window_mask (coords : List (Nat × Nat)) : Nat :=
  coords.foldl (fun acc rc => acc ||| (1 <<< BitboardState.idx rc.1 rc.2)) 0

/-- `score_window`: the per-window heuristic contribution from the chip
counts of the two players. -/
def BitboardState.score_window (p1_board p2_board window_mask : Nat) : Int :=
  let num_p1_chips := BitboardState.count_player_chips p1_board window_mask
  let num_p2_chips := BitboardState.count_player_chips p2_board window_mask
  match num_p1_chips, num_p2_chips with
  | 4, 0 => 100000
  | 3, 0 => 100
  | 2, 0 => 10
  | 0, 2 => -10
  | 0, 3 => -100
  | 0, 4 => -100000
  | _, _ => 0

/-- `check_horizontal`: all 4-cell windows at fixed row, consecutive cols. -/
def BitboardState.check_horizontal (p1_board p2_board : Nat) : Int :=
  ((List.range (COLS - WIN_LENGTH + 1)).map (fun col =>
    ((List.range ROWS).map (fun row =>
      BitboardState.score_window p1_board p2_board
        (BitboardState.window_mask
          [(row, col), (row, col + 1), (row, col + 2), (row, col + 3)]))).sum)).sum

/-- `check_vertical`: all 4-cell windows at fixed col, consecutive rows. -/
def BitboardState.check_vertical (p1_board p2_board : Nat) : Int :=
  ((List.range COLS).map (fun col =>
    ((List.range (ROWS - WIN_LENGTH + 1)).map (fun row =>
      BitboardState.score_window p1_board p2_board
        (BitboardState.window_mask
          [(row, col), (row + 1, col), (row + 2, col), (row + 3, col)]))).sum)).sum

/-- `check_diag_down`: the ↘ diagonal windows. -/
def BitboardState.check_diag_down (p1_board p2_board : Nat) : Int :=
  ((List.range (COLS - WIN_LENGTH + 1)).map (fun col =>
    ((List.range (ROWS - WIN_LENGTH + 1)).map (fun row =>
      BitboardState.score_window p1_board p2_board
        (BitboardState.window_mask
          [(row, col), (row + 1, col + 1), (row + 2, col + 2),
           (row + 3, col + 3)]))).sum)).sum

/-- `check_diag_up`: the ↗ diagonal windows (`row` from `WIN_LENGTH - 1`
up to `ROWS - 1`). -/
def BitboardState.check_diag_up (p1_board p2_board : Nat) : Int :=
  ((List.range (COLS - WIN_LENGTH + 1)).map (fun col =>
    ((List.range' (WIN_LENGTH - 1) (ROWS - (WIN_LENGTH - 1))).map (fun row =>
      BitboardState.score_window p1_board p2_board
        (BitboardState.window_mask
          [(row, col), (row - 1, col + 1), (row - 2, col + 2),
           (row - 3, col + 3)]))).sum)).sum

/-- `score_all_windows`: sum of the four direction scores. -/
def BitboardState.score_all_windows (p1_board p2_board : Nat) : Int :=
  BitboardState.check_horizontal p1_board p2_board +
    BitboardState.check_vertical p1_board p2_board +
    BitboardState.check_diag_down p1_board p2_board +
    BitboardState.check_diag_up p1_board p2_board

/-- `score_column`: column weight times the chip-count difference. -/
def BitboardState.score_column (p1_board p2_board : Nat) (column : Nat) : Int :=
  let col_mask := (List.range ROWS).foldl
    (fun acc row => acc ||| (1 <<< BitboardState.idx row column)) 0
  let num_p1_chips : Int := BitboardState.count_player_chips p1_board col_mask
  let num_p2_chips : Int := BitboardState.count_player_chips p2_board col_mask
  COL_WEIGHTS.getD column 0 * (num_p1_chips - num_p2_chips)

/-- `center_control_score`: sum of `score_column` over the 7 columns. -/
def BitboardState.center_control_score (p1_board p2_board : Nat) : Int :=
  ((List.range COLS).map
    (fun col => BitboardState.score_column p1_board p2_board col)).sum

/-- `is_terminal` for the bitboard: a win for either side or a full board. -/
def BitboardState.is_terminal (s : BitboardState) : Bool :=
  BitboardState.check_win s.player_bb || BitboardState.check_win s.p2_bb ||
    s.is_full

/-- `terminal_value` for the bitboard: `+1` on a Player1 win, `-1` on a
Player2 win, `0` on a full board, `None` otherwise. -/
def BitboardState.terminal_value (s : BitboardState) : Option Int :=
  if BitboardState.check_win s.player_bb then some 1
  else if BitboardState.check_win s.p2_bb then some (-1)
  else if s.is_full then some 0
  else none

/-- `evaluate`: terminal values scaled by 1 000 000, else window scores plus
center control. -/
def BitboardState.evaluate (s : BitboardState) : Int :=
  let p1_board := s.player_bb
  let p2_board := s.p2_bb
  match s.terminal_value with
  | some v => v * 1000000
  | none =>
    BitboardState.score_all_windows p1_board p2_board +
      BitboardState.center_control_score p1_board p2_board

/-- `move_ordering_key_connect4`: 1 000 000 for an immediate win, 10 000 for
blocking the opponent's immediate win, else the column weight. -/
def BitboardState.move_ordering_key_connect4 (s : BitboardState) (col : Nat) :
    Int :=
  let bit := s.next_bit col
  let p1 := s.player_bb
  let p2 := s.p2_bb
  let curr_after :=
    match s.current_player with
    | Player.Player1 => p1 ||| bit
    | Player.Player2 => p2 ||| bit
  let opp_after :=
    match s.current_player with
    | Player.Player1 => p2 ||| bit
    | Player.Player2 => p1 ||| bit
  if BitboardState.check_win curr_after then 1000000
  else if BitboardState.check_win opp_after then 10000
  else COL_WEIGHTS.getD col 0

/-- `legal_moves` for the bitboard: the columns with height `< ROWS`. -/
def BitboardState.legal_moves (s : BitboardState) : List Nat :=
  (List.range COLS).filter (fun c => s.heights.1.getD c 0 < ROWS)

/-- The `GameState` impl for `BitboardState` (moves are column indices;
`heuristic_value` delegates to `evaluate`, `move_ordering_key` to
`move_ordering_key_connect4`). -/
def bitboardGame : Game where
  State := BitboardState
  Move := Nat
  current_player := BitboardState.current_player
  legal_moves := BitboardState.legal_moves
  apply_move := BitboardState.apply_column_move
  is_terminal := BitboardState.is_terminal
  terminal_value := BitboardState.terminal_value
  heuristic_value := BitboardState.evaluate
  move_ordering_key := BitboardState.move_ordering_key_connect4

/-! ## Well-formedness predicates for the fuel-based searches -/

/-- The local conditions the exact searches rely on at a terminal state:
`terminal_value()` is `Some v` (so the `unwrap` succeeds) with `v` strictly
inside the `i32` range (true of the program's values `-1,0,1`). -/
def terminalOK (g : Game) (s : g.State) : Bool :=
  match g.terminal_value s with
  | some v => decide (intMin < v) && decide (v < intMax)
  | none => false

/-- `SearchOK g n s`: the game tree below `s` bottoms out at terminal states
within `n` plies, every terminal state in it satisfies `terminalOK`, and
every non-terminal state in it has at least one legal move.  This is exactly
the "reachable game tree is finite (and the code's unwraps succeed)"
precondition of the exact searches, made decidable. -/
def SearchOK (g : Game) : Nat → g.State → Bool
  | 0, s => g.is_terminal s && terminalOK g s
  | n + 1, s =>
    if g.is_terminal s then terminalOK g s
    else
      !(g.legal_moves s).isEmpty &&
        (g.legal_moves s).all (fun m => SearchOK g n (g.apply_move s m))

/-- `DepthOK g d s`: along every path of length `≤ d` from `s`, scaled
terminal values and horizon heuristic values stay strictly inside the `i32`
range, and non-terminal states have at least one legal move.  This is what
the depth-limited best-move query needs from the game. -/
def DepthOK (g : Game) : Nat → g.State → Bool
  | 0, s =>
    match g.terminal_value s with
    | some v => decide (intMin < v * 1000000) && decide (v * 1000000 < intMax)
    | none =>
      decide (intMin < g.heuristic_value s) &&
        decide (g.heuristic_value s < intMax)
  | d + 1, s =>
    match g.terminal_value s with
    | some v => decide (intMin < v * 1000000) && decide (v * 1000000 < intMax)
    | none =>
      !(g.legal_moves s).isEmpty &&
        (g.legal_moves s).all (fun m => DepthOK g d (g.apply_move s m))

/-! ## Folded maxima / minima of child values -/

/-- `listMax v l`: `v` joined with all elements of `l` under `max`; the value
a maximizing node computes from its children (`v` is the `i32::MIN` seed). -/
def listMax (v : Int) (l : List Int) : Int := l.foldl max v

/-- `listMin v l`: dual of `listMax`. -/
def listMin (v : Int) (l : List Int) : Int := l.foldl min v

theorem listMax_nil (v : Int) : listMax v [] = v := rfl

theorem listMax_cons (v x : Int) (l : List Int) :
    listMax v (x :: l) = listMax (max v x) l := rfl

theorem listMin_nil (v : Int) : listMin v [] = v := rfl

theorem listMin_cons (v x : Int) (l : List Int) :
    listMin v (x :: l) = listMin (min v x) l := rfl

theorem le_listMax_init (v : Int) (l : List Int) : v ≤ listMax v l := by
  induction l generalizing v with
  | nil => exact le_refl v
  | cons x l ih =>
    rw [listMax_cons]
    exact le_trans (le_max_left v x) (ih (max v x))

theorem le_listMax_mem {x : Int} {l : List Int} (v : Int) (hx : x ∈ l) :
    x ≤ listMax v l := by
  induction l generalizing v with
  | nil => cases hx
  | cons y l ih =>
    rw [listMax_cons]
    rcases List.mem_cons.mp hx with h | h
    · subst h
      exact le_trans (le_max_right v x) (le_listMax_init (max v x) l)
    · exact ih (max v y) h

theorem listMax_le {v c : Int} {l : List Int} (hv : v ≤ c)
    (hl : ∀ x ∈ l, x ≤ c) : listMax v l ≤ c := by
  induction l generalizing v with
  | nil => exact hv
  | cons x l ih =>
    rw [listMax_cons]
    exact ih (max_le hv (hl x (List.mem_cons_self x l)))
      (fun y hy => hl y (List.mem_cons_of_mem x hy))

theorem listMax_eq_init_or_mem (v : Int) (l : List Int) :
    listMax v l = v ∨ listMax v l ∈ l := by
  induction l generalizing v with
  | nil => exact Or.inl rfl
  | cons x l ih =>
    rw [listMax_cons]
    rcases ih (max v x) with h | h
    · rcases max_choice v x with hm | hm
      · exact Or.inl (h.trans hm)
      · exact Or.inr (List.mem_cons.mpr (Or.inl (h.trans hm)))
    · exact Or.inr (List.mem_cons_of_mem x h)

theorem listMin_le_init (v : Int) (l : List Int) : listMin v l ≤ v := by
  induction l generalizing v with
  | nil => exact le_refl v
  | cons x l ih =>
    rw [listMin_cons]
    exact le_trans (ih (min v x)) (min_le_left v x)

theorem listMin_le_mem {x : Int} {l : List Int} (v : Int) (hx : x ∈ l) :
    listMin v l ≤ x := by
  induction l generalizing v with
  | nil => cases hx
  | cons y l ih =>
    rw [listMin_cons]
    rcases List.mem_cons.mp hx with h | h
    · subst h
      exact le_trans (listMin_le_init (min v x) l) (min_le_right v x)
    · exact ih (min v y) h

theorem le_listMin {v c : Int} {l : List Int} (hv : c ≤ v)
    (hl : ∀ x ∈ l, c ≤ x) : c ≤ listMin v l := by
  induction l generalizing v with
  | nil => exact hv
  | cons x l ih =>
    rw [listMin_cons]
    exact ih (le_min hv (hl x (List.mem_cons_self x l)))
      (fun y hy => hl y (List.mem_cons_of_mem x hy))

theorem listMin_eq_init_or_mem (v : Int) (l : List Int) :
    listMin v l = v ∨ listMin v l ∈ l := by
  induction l generalizing v with
  | nil => exact Or.inl rfl
  | cons x l ih =>
    rw [listMin_cons]
    rcases ih (min v x) with h | h
    · rcases min_choice v x with hm | hm
      · exact Or.inl (h.trans hm)
      · exact Or.inr (List.mem_cons.mpr (Or.inl (h.trans hm)))
    · exact Or.inr (List.mem_cons_of_mem x h)

/-- `listMax` only depends on the multiset of elements. -/
theorem listMax_perm {l₁ l₂ : List Int} (h : l₁.Perm l₂) (v : Int) :
    listMax v l₁ = listMax v l₂ := by
  apply le_antisymm
  · apply listMax_le (le_listMax_init v l₂)
    intro x hx
    exact le_listMax_mem v (h.mem_iff.mp hx)
  · apply listMax_le (le_listMax_init v l₁)
    intro x hx
    exact le_listMax_mem v (h.mem_iff.mpr hx)

/-- `listMin` only depends on the multiset of elements. -/
theorem listMin_perm {l₁ l₂ : List Int} (h : l₁.Perm l₂) (v : Int) :
    listMin v l₁ = listMin v l₂ := by
  apply le_antisymm
  · apply le_listMin (listMin_le_init v l₁)
    intro x hx
    exact listMin_le_mem v (h.mem_iff.mpr hx)
  · apply le_listMin (listMin_le_init v l₂)
    intro x hx
    exact listMin_le_mem v (h.mem_iff.mp hx)

/-! ## C3: `is_terminal()` agrees with `terminal_value().is_some()` -/

theorem ttt_is_terminal_eq_isSome (s : TicTacToeState) :
    s.is_terminal = (s.terminal_value).isSome := by
  unfold TicTacToeState.is_terminal TicTacToeState.terminal_value
  cases h : WIN_LINES.find? (fun t => s.winLine t) with
  | some t =>
    have ht := List.mem_of_find?_eq_some h
    have hw := List.find?_some h
    have hany : WIN_LINES.any (fun t => s.winLine t) = true :=
      List.any_eq_true.mpr ⟨t, ht, hw⟩
    simp [hany]
  | none =>
    have hany : WIN_LINES.any (fun t => s.winLine t) = false := by
      rw [List.any_eq_false]
      intro t ht
      simpa using List.find?_eq_none.mp h t ht
    by_cases hfull : s.board.1.all (fun cell => cell != Cell.Empty) = true
    · simp [hany, hfull]
    · simp [hany, Bool.eq_false_iff.mpr hfull]

theorem bitboard_is_terminal_eq_isSome (s : BitboardState) :
    s.is_terminal = (s.terminal_value).isSome := by
  unfold BitboardState.is_terminal BitboardState.terminal_value
  by_cases h1 : BitboardState.check_win s.player_bb = true
  · simp [h1]
  · by_cases h2 : BitboardState.check_win s.p2_bb = true
    · simp [h1, h2, Bool.eq_false_iff.mpr h1]
    · by_cases h3 : s.is_full = true
      · simp [Bool.eq_false_iff.mpr h1, Bool.eq_false_iff.mpr h2, h3]
      · simp [Bool.eq_false_iff.mpr h1, Bool.eq_false_iff.mpr h2,
          Bool.eq_false_iff.mpr h3]

/-- C3: for every `TicTacToeState` and every `BitboardState` (all states, in
particular all reachable ones), `is_terminal()` returns true if and only if
`terminal_value()` returns `Some` value; the two never disagree. -/
theorem claim_C3 :
    (∀ s : TicTacToeState,
      s.is_terminal = true ↔ (s.terminal_value).isSome = true) ∧
    (∀ s : BitboardState,
      s.is_terminal = true ↔ (s.terminal_value).isSome = true) := by
  constructor
  · intro s
    rw [ttt_is_terminal_eq_isSome]
  · intro s
    rw [bitboard_is_terminal_eq_isSome]

/-! ## C7: `from_str` parses exactly the valid 9-character boards -/

theorem tttParseCell_char {n : Char} {c : Cell}
    (h : tttParseCell n = Except.ok c) : cell_to_char c = n := by
  unfold tttParseCell at h
  by_cases h1 : n = 'X'
  · simp [h1] at h
    simp [← h, cell_to_char, h1]
  · by_cases h2 : n = 'O'
    · simp [h1, h2] at h
      simp [← h, cell_to_char, h2]
    · by_cases h3 : n = '.'
      · simp [h1, h2, h3] at h
        simp [← h, cell_to_char, h3]
      · simp [h1, h2, h3] at h

theorem tttParseCell_valid {n : Char} {c : Cell}
    (h : tttParseCell n = Except.ok c) : n = '.' ∨ n = 'X' ∨ n = 'O' := by
  unfold tttParseCell at h
  by_cases h1 : n = 'X'
  · exact Or.inr (Or.inl h1)
  · by_cases h2 : n = 'O'
    · exact Or.inr (Or.inr h2)
    · by_cases h3 : n = '.'
      · exact Or.inl h3
      · simp [h1, h2, h3] at h

theorem tttParseCell_of_valid {n : Char}
    (h : n = '.' ∨ n = 'X' ∨ n = 'O') : ∃ c, tttParseCell n = Except.ok c := by
  rcases h with h | h | h <;> subst h <;> simp [tttParseCell]

theorem collectCells_char : ∀ (l : List Char) (cells : List Cell),
    collectCells l = Except.ok cells → cells.map cell_to_char = l := by
  intro l
  induction l with
  | nil =>
    intro cells h
    cases h
    rfl
  | cons c l ih =>
    intro cells h
    unfold collectCells at h
    cases hc : tttParseCell c with
    | error e => rw [hc] at h; cases h
    | ok x =>
      rw [hc] at h
      cases hl : collectCells l with
      | error e => rw [hl] at h; cases h
      | ok xs =>
        rw [hl] at h
        cases h
        simp [tttParseCell_char hc, ih xs hl]

theorem collectCells_exists : ∀ (l : List Char),
    (∀ c ∈ l, c = '.' ∨ c = 'X' ∨ c = 'O') →
    ∃ cells, collectCells l = Except.ok cells := by
  intro l
  induction l with
  | nil =>
    intro _
    exact ⟨[], rfl⟩
  | cons c l ih =>
    intro hv
    obtain ⟨x, hx⟩ := tttParseCell_of_valid (hv c (List.mem_cons_self c l))
    obtain ⟨xs, hxs⟩ := ih (fun d hd => hv d (List.mem_cons_of_mem c hd))
    refine ⟨x :: xs, ?_⟩
    unfold collectCells
    rw [hx, hxs]

/-- C7: `TicTacToeState::from_str(repr, p)` returns `Ok` if and only if
`repr` consists of exactly 9 characters each drawn from `{'.', 'X', 'O'}`; on
success the i-th character determines cell i (`.` → `Empty`, `X` → `X`,
`O` → `O`) and the current player equals `p`, so re-deriving the cell
contents (via `cell_to_char`) reproduces the input layout exactly; any other
character or any other length yields an `Err`. -/
theorem claim_C7 (repr : String) (p : Player) :
    ((∃ st, TicTacToeState.from_str repr p = Except.ok st) ↔
      (repr.data.length = 9 ∧ ∀ c ∈ repr.data, c = '.' ∨ c = 'X' ∨ c = 'O')) ∧
    (∀ st, TicTacToeState.from_str repr p = Except.ok st →
      st.board.1.map cell_to_char = repr.data ∧ st.current_player = p) := by
  constructor
  · constructor
    · rintro ⟨st, hst⟩
      unfold TicTacToeState.from_str at hst
      cases hm : collectCells repr.data with
      | error e => rw [hm] at hst; cases hst
      | ok cells =>
        rw [hm] at hst
        by_cases hlen : cells.length = 9
        · have hchar := collectCells_char repr.data cells hm
          constructor
          · rw [← hchar, List.length_map]
            exact hlen
          · intro c hc
            rw [← hchar] at hc
            obtain ⟨cell, _, hcell⟩ := List.mem_map.mp hc
            cases cell <;> simp [cell_to_char] at hcell <;> subst hcell <;>
              simp [cell_to_char]
        · simp [hlen] at hst
    · rintro ⟨hlen, hvalid⟩
      obtain ⟨cells, hm⟩ := collectCells_exists repr.data hvalid
      have hchar := collectCells_char repr.data cells hm
      have hl : cells.length = 9 := by
        have := congrArg List.length hchar
        rw [List.length_map] at this
        rw [this]
        exact hlen
      refine ⟨⟨⟨cells, hl⟩, p⟩, ?_⟩
      unfold TicTacToeState.from_str
      rw [hm]
      simp [hl]
  · intro st hst
    unfold TicTacToeState.from_str at hst
    cases hm : collectCells repr.data with
    | error e => rw [hm] at hst; cases hst
    | ok cells =>
      rw [hm] at hst
      by_cases hlen : cells.length = 9
      · simp only [hlen, reduceDIte, Except.ok.injEq] at hst
        subst hst
        exact ⟨collectCells_char repr.data cells hm, rfl⟩
      · simp [hlen] at hst

/-- C7 witness: a concrete valid parse obtained through `claim_C7`. -/
theorem claim_C7_witness :
    ∃ st, TicTacToeState.from_str "X.O...O.." Player.Player1 = Except.ok st :=
  (claim_C7 "X.O...O.." Player.Player1).1.mpr (by decide)

/-! ## C10: `TicTacToeState::apply_move` is total on indices 0..=8 -/

/-- C10: `TicTacToeState::apply_move` is total for every move whose index is
in `[0,8]`, including moves targeting an occupied cell: it never panics and
never signals an error (in the embedding it is a total function whose write
stays in bounds), returning a new state in which that cell is overwritten
with the current player's mark (X for Player1, O for Player2), the other
eight cells are unchanged, and the current player is flipped. -/
theorem claim_C10 (s : TicTacToeState) (mv : TicTacToeMove)
    (h : mv.index ≤ 8) :
    (s.apply_move mv).board.1[mv.index]? =
      some (match s.current_player with
        | Player.Player1 => Cell.X
        | Player.Player2 => Cell.O) ∧
    (∀ j, j ≠ mv.index → (s.apply_move mv).board.1[j]? = s.board.1[j]?) ∧
    (s.apply_move mv).current_player = opposite_player s.current_player := by
  refine ⟨?_, ?_, rfl⟩
  · show (s.board.1.set mv.index _)[mv.index]? = _
    have hlt : mv.index < s.board.1.length := by
      rw [s.board.2]
      omega
    rw [List.getElem?_set, if_pos rfl, if_pos hlt]
  · intro j hj
    show (s.board.1.set mv.index _)[j]? = _
    rw [List.getElem?_set, if_neg (fun he => hj he.symm)]

/-- C10 witness: playing the (occupied) cell 0 of a concrete board. -/
theorem claim_C10_witness :
    let s :=
      { board := ⟨[Cell.X, Cell.O, Cell.Empty, Cell.Empty, Cell.Empty,
          Cell.Empty, Cell.Empty, Cell.Empty, Cell.Empty], by decide⟩,
        current_player := Player.Player1 : TicTacToeState }
    let mv : TicTacToeMove := ⟨0⟩
    (s.apply_move mv).board.1[mv.index]? =
      some (match s.current_player with
        | Player.Player1 => Cell.X
        | Player.Player2 => Cell.O) ∧
    (∀ j, j ≠ mv.index → (s.apply_move mv).board.1[j]? = s.board.1[j]?) ∧
    (s.apply_move mv).current_player = opposite_player s.current_player :=
  claim_C10 _ _ (by decide)

/-! ## C5: `check_win` detects exactly the 4-runs at strides 1, 7, 8, 6 -/

/-- Four set bits of `bb` at stride `shift`, starting at bit `i`. -/
def hasRunAt (bb shift i : Nat) : Prop :=
  bb.testBit i = true ∧ bb.testBit (i + shift) = true ∧
    bb.testBit (i + 2 * shift) = true ∧ bb.testBit (i + 3 * shift) = true

/-- Four contiguous set bits somewhere in the 64-bit word, at stride
`shift`. -/
def hasRunDir (bb shift : Nat) : Prop :=
  ∃ i, i + 3 * shift < 64 ∧ hasRunAt bb shift i

theorem ne_zero_iff_exists_testBit (n : Nat) :
    n ≠ 0 ↔ ∃ i, n.testBit i = true := by
  constructor
  · intro h
    by_contra hc
    push_neg at hc
    apply h
    apply Nat.eq_of_testBit_eq
    intro i
    rw [Nat.zero_testBit]
    simpa using hc i
  · rintro ⟨i, hi⟩ h0
    rw [h0, Nat.zero_testBit] at hi
    cases hi

/-- The shift-doubling trick is exactly run detection:
`(bb & (bb >> s)) & ((bb & (bb >> s)) >> 2s) ≠ 0` iff four bits of `bb` at
stride `s` are set. -/
theorem has_run_iff (bb shift : Nat) :
    BitboardState.has_run bb shift = true ↔ ∃ i, hasRunAt bb shift i := by
  unfold BitboardState.has_run
  rw [bne_iff_ne, ne_zero_iff_exists_testBit]
  constructor
  · rintro ⟨i, hi⟩
    simp only [Nat.testBit_and, Nat.testBit_shiftRight, Bool.and_eq_true] at hi
    obtain ⟨⟨h0, h1⟩, h2, h3⟩ := hi
    refine ⟨i, h0, ?_, ?_, ?_⟩
    · rw [Nat.add_comm]
      exact h1
    · rw [Nat.add_comm]
      exact h2
    · have he : shift + (2 * shift + i) = i + 3 * shift := by ring
      rw [← he]
      exact h3
  · rintro ⟨i, h0, h1, h2, h3⟩
    refine ⟨i, ?_⟩
    simp only [Nat.testBit_and, Nat.testBit_shiftRight, Bool.and_eq_true]
    refine ⟨⟨h0, ?_⟩, ?_, ?_⟩
    · rw [Nat.add_comm]
      exact h1
    · rw [Nat.add_comm]
      exact h2
    · have he : shift + (2 * shift + i) = i + 3 * shift := by ring
      rw [he]
      exact h3

theorem testBit_true_lt_64 {bb j : Nat} (hbb : bb < 2 ^ 64)
    (h : bb.testBit j = true) : j < 64 := by
  by_contra hj
  push_neg at hj
  have : bb < 2 ^ j := lt_of_lt_of_le hbb (Nat.pow_le_pow_right (by omega) hj)
  rw [Nat.testBit_lt_two_pow this] at h
  cases h

theorem has_run_iff_dir {bb : Nat} (hbb : bb < 2 ^ 64) (shift : Nat) :
    BitboardState.has_run bb shift = true ↔ hasRunDir bb shift := by
  rw [has_run_iff]
  constructor
  · rintro ⟨i, hrun⟩
    exact ⟨i, testBit_true_lt_64 hbb hrun.2.2.2, hrun⟩
  · rintro ⟨i, _, hrun⟩
    exact ⟨i, hrun⟩

/-- C5: for every 64-bit bitboard `bb` in which no sentinel-row bit
(`c * 7 + 6` for the columns `c < 7`) is set, `check_win(bb)` returns true
iff `bb` contains four contiguous set bits in one of the four board
directions — i.e. four set bits at stride 1 (vertical in this layout),
7 (horizontal), 8 or 6 (the two diagonals), which is what the shifts
`1, 7, 8, 6` with `x = bb & (bb >> shift); (x & (x >> 2*shift)) != 0`
detect.  (The sentinel hypothesis delimits the claimed domain; the
equivalence between the shift trick and run existence holds on all of it.) -/
theorem claim_C5 (bb : Nat) (hbb : bb < 2 ^ 64)
    (hsent : ∀ c < 7, bb.testBit (c * 7 + 6) = false) :
    (BitboardState.check_win bb = true ↔
      hasRunDir bb 1 ∨ hasRunDir bb 7 ∨ hasRunDir bb 8 ∨ hasRunDir bb 6) := by
  have e1 : BITS_PER_COL = 7 := rfl
  have e2 : BITS_PER_COL + 1 = 8 := rfl
  have e3 : BITS_PER_COL - 1 = 6 := rfl
  unfold BitboardState.check_win
  rw [e2, e3, e1]
  simp only [Bool.or_eq_true, has_run_iff_dir hbb]
  tauto

/-- C5 witness: the bitboard with bits 0..3 set (a stride-1 run entirely in
column 0) satisfies the hypotheses and the equivalence. -/
theorem claim_C5_witness :
    (15 : Nat) < 2 ^ 64 ∧ (∀ c < 7, (15 : Nat).testBit (c * 7 + 6) = false) ∧
    (BitboardState.check_win 15 = true ↔
      hasRunDir 15 1 ∨ hasRunDir 15 7 ∨ hasRunDir 15 8 ∨ hasRunDir 15 6) :=
  ⟨by decide, by decide, claim_C5 15 (by decide) (by decide)⟩

/-! ## C2: the move ordering used by the alpha-beta functions -/

/-- The key list of the moves the alpha-beta functions explore is
non-increasing — for **both** players: the code always sorts by
`Reverse(move_ordering_key)`, the key itself being defined from the
perspective of the side to move. -/
theorem sortedMoves_key_sorted (g : Game) (s : g.State) :
    ((sortedMoves g s).map (fun m => g.move_ordering_key s m)).Pairwise
      (· ≥ ·) := by
  have hp : ((g.legal_moves s).mergeSort
      (fun a b =>
        decide (g.move_ordering_key s b ≤ g.move_ordering_key s a))).Pairwise
      (fun a b =>
        decide (g.move_ordering_key s b ≤ g.move_ordering_key s a) = true) :=
    List.sorted_mergeSort
      (by
        intro a b c hab hbc
        simp only [decide_eq_true_eq] at hab hbc ⊢
        exact le_trans hbc hab)
      (by
        intro a b
        simp only [Bool.or_eq_true, decide_eq_true_eq]
        exact Int.le_total (g.move_ordering_key s b) (g.move_ordering_key s a))
      (g.legal_moves s)
  refine List.Pairwise.map _ ?_ hp
  intro a b hab
  simpa using hab

/-- The explored list is a permutation of `legal_moves()`. -/
theorem sortedMoves_perm (g : Game) (s : g.State) :
    (sortedMoves g s).Perm (g.legal_moves s) :=
  List.mergeSort_perm (g.legal_moves s) _

/-- A list that is sorted both non-decreasingly and non-increasingly is
constant. -/
theorem sorted_both_eq : ∀ (l : List Int), l.Pairwise (· ≤ ·) →
    l.Pairwise (· ≥ ·) → ∀ a ∈ l, ∀ b ∈ l, a = b := by
  intro l
  induction l with
  | nil =>
    intro _ _ a ha
    cases ha
  | cons x l ih =>
    intro h1 h2 a ha b hb
    rw [List.pairwise_cons] at h1 h2
    rcases List.mem_cons.mp ha with hax | ha
    · rcases List.mem_cons.mp hb with hbx | hb
      · rw [hax, hbx]
      · rw [hax]
        exact le_antisymm (h1.1 b hb) (h2.1 b hb)
    · rcases List.mem_cons.mp hb with hbx | hb
      · rw [hbx]
        exact (le_antisymm (h1.1 a ha) (h2.1 a ha)).symm
      · exact ih h1.2 h2.2 a ha b hb

/-- The board after X plays cell 0: a reachable state with Player2 to move. -/
def tttP2State : TicTacToeState :=
  ⟨⟨[Cell.X, Cell.Empty, Cell.Empty, Cell.Empty, Cell.Empty, Cell.Empty,
     Cell.Empty, Cell.Empty, Cell.Empty], by decide⟩, Player.Player2⟩

/-- C2 counterexample: with Player2 (the minimizer) to move, the list the
alpha-beta functions explore (`sortedMoves`, used verbatim in
`minimax_value_ab` and `minimax_value_ab_depth`) is *not* in ascending key
order, contrary to the claim: its key multiset is `{3,2,2,2,1,1,1,1}` and it
is sorted descendingly, so ascending order is impossible. -/
theorem claim_C2_counterexample :
    tttGame.current_player tttP2State = Player.Player2 ∧
    ¬ List.Sorted (· ≤ ·)
      ((sortedMoves tttGame tttP2State).map
        (fun m => tttGame.move_ordering_key tttP2State m)) := by
  refine ⟨rfl, ?_⟩
  intro hasc
  have hdesc := sortedMoves_key_sorted tttGame tttP2State
  have hperm : ((sortedMoves tttGame tttP2State).map
      (fun m => tttGame.move_ordering_key tttP2State m)).Perm
      ((tttGame.legal_moves tttP2State).map
        (fun m => tttGame.move_ordering_key tttP2State m)) :=
    (sortedMoves_perm tttGame tttP2State).map _
  have h3 : (3 : Int) ∈ (sortedMoves tttGame tttP2State).map
      (fun m => tttGame.move_ordering_key tttP2State m) :=
    hperm.mem_iff.mpr (by decide)
  have h1 : (1 : Int) ∈ (sortedMoves tttGame tttP2State).map
      (fun m => tttGame.move_ordering_key tttP2State m) :=
    hperm.mem_iff.mpr (by decide)
  have h31 := sorted_both_eq _ hasc hdesc 3 h3 1 h1
  exact absurd h31 (by decide)

/-- C2 (amended): in the alpha-beta search functions, before children are
explored the legal moves are sorted by `move_ordering_key` in *descending*
key order for both players — the key is already expressed from the
perspective of the player to move, so no per-player direction flip exists in
the code.  The sorted list is a permutation of `legal_moves()`. -/
theorem claim_C2 (g : Game) (s : g.State) :
    List.Sorted (· ≥ ·)
      ((sortedMoves g s).map (fun m => g.move_ordering_key s m)) ∧
    (sortedMoves g s).Perm (g.legal_moves s) :=
  ⟨sortedMoves_key_sorted g s, sortedMoves_perm g s⟩

/-! ## C8: the depth-limited search is a total function of its recurrence -/

theorem abLoop_congr (g : Game) (s : g.State)
    {f₁ f₂ : g.State → Int → Int → Int}
    (h : ∀ t a b, f₁ t a b = f₂ t a b) (maximizing : Bool) :
    ∀ (ms : List g.Move) (value alpha beta : Int),
      abLoop g s f₁ maximizing ms value alpha beta =
        abLoop g s f₂ maximizing ms value alpha beta := by
  intro ms
  induction ms with
  | nil =>
    intro value alpha beta
    rfl
  | cons mv rest ih =>
    intro value alpha beta
    unfold abLoop
    rw [h]
    cases maximizing with
    | true =>
      simp only [if_true]
      split
      · rfl
      · exact ih _ _ _
    | false =>
      simp only [Bool.false_eq_true, if_false]
      split
      · rfl
      · exact ih _ _ _

/-- The one-step recurrence satisfied by `minimax_value_ab_depth`: scaled
terminal value, else heuristic at depth 0, else the alpha-beta loop with the
recursion at `depth - 1`. -/
theorem minimax_value_ab_depth_eq (g : Game) (depth : Nat) (s : g.State)
    (alpha beta : Int) :
    minimax_value_ab_depth g depth s alpha beta =
      match g.terminal_value s with
      | some v => v * 1000000
      | none =>
        if depth = 0 then g.heuristic_value s
        else
          abLoop g s (minimax_value_ab_depth g (depth - 1))
            (g.current_player s == Player.Player1) (sortedMoves g s)
            (if g.current_player s == Player.Player1 then intMin else intMax)
            alpha beta := by
  cases depth with
  | zero => cases htv : g.terminal_value s <;> simp [minimax_value_ab_depth, htv]
  | succ d => cases htv : g.terminal_value s <;> simp [minimax_value_ab_depth, htv]

/-- C8: for every state, every depth and every alpha/beta bounds,
`minimax_value_ab_depth` terminates — it is a total function: every recursive
call is made at `depth - 1`, so the recursion is well-founded on `depth`,
bottoming out at terminal states or depth 0.  Formalized: the defining
recurrence (whose only self-reference is at `depth - 1`) determines a unique
total function, and `minimax_value_ab_depth` — itself a total, structurally
recursive Lean function — is that solution on all inputs. -/
theorem claim_C8 (g : Game) (h : Nat → g.State → Int → Int → Int)
    (hrec : ∀ depth s alpha beta,
      h depth s alpha beta =
        match g.terminal_value s with
        | some v => v * 1000000
        | none =>
          if depth = 0 then g.heuristic_value s
          else
            abLoop g s (h (depth - 1)) (g.current_player s == Player.Player1)
              (sortedMoves g s)
              (if g.current_player s == Player.Player1 then intMin else intMax)
              alpha beta) :
    ∀ depth s alpha beta,
      h depth s alpha beta = minimax_value_ab_depth g depth s alpha beta := by
  intro depth
  induction depth with
  | zero =>
    intro s alpha beta
    rw [hrec, minimax_value_ab_depth_eq]
    cases htv : g.terminal_value s <;> simp [htv]
  | succ d ih =>
    intro s alpha beta
    rw [hrec, minimax_value_ab_depth_eq]
    cases htv : g.terminal_value s with
    | some v => simp [htv]
    | none =>
      simp only [htv, if_neg (Nat.succ_ne_zero d), Nat.add_sub_cancel]
      exact abLoop_congr g s (fun t a b => ih t a b) _ _ _ _ _

/-- C8 witness: `minimax_value_ab_depth` itself satisfies the recurrence, so
the theorem applies to it at a concrete input. -/
theorem claim_C8_witness :
    minimax_value_ab_depth tttGame 2 TicTacToeState.new 0 1 =
      minimax_value_ab_depth tttGame 2 TicTacToeState.new 0 1 :=
  claim_C8 tttGame (minimax_value_ab_depth tttGame)
    (fun depth s alpha beta => minimax_value_ab_depth_eq tttGame depth s alpha beta)
    2 TicTacToeState.new 0 1

/-! ## C4: terminal scaling and heuristic horizon of the depth-limited search -/

/-- C4: for every state and every depth, `minimax_value_ab_depth` returns
`terminal_value() * 1_000_000` whenever the state is terminal (including when
depth is 0), and returns `state.heuristic_value()` unchanged whenever the
state is non-terminal and depth equals 0, with no recursion in either case.
(The hypothesis is the `is_terminal()`/`terminal_value()` agreement invariant,
which both concrete games satisfy — `claim_C3`.) -/
theorem claim_C4 (g : Game)
    (hiff : ∀ t, g.is_terminal t = (g.terminal_value t).isSome) :
    ∀ (s : g.State) (depth : Nat) (alpha beta : Int),
      (g.is_terminal s = true →
        ∃ v, g.terminal_value s = some v ∧
          minimax_value_ab_depth g depth s alpha beta = v * 1000000) ∧
      (g.is_terminal s = false →
        minimax_value_ab_depth g 0 s alpha beta = g.heuristic_value s) := by
  intro s depth alpha beta
  constructor
  · intro hterm
    rw [hiff] at hterm
    cases htv : g.terminal_value s with
    | none =>
      rw [htv] at hterm
      cases hterm
    | some v =>
      refine ⟨v, rfl, ?_⟩
      cases depth <;> simp [minimax_value_ab_depth, htv]
  · intro hterm
    rw [hiff] at hterm
    cases htv : g.terminal_value s with
    | some v =>
      rw [htv] at hterm
      cases hterm
    | none => simp [minimax_value_ab_depth, htv]

/-- A won terminal Tic-Tac-Toe board (top row of X). -/
def tttXWinState : TicTacToeState :=
  ⟨⟨[Cell.X, Cell.X, Cell.X, Cell.Empty, Cell.Empty, Cell.Empty,
     Cell.Empty, Cell.Empty, Cell.Empty], by decide⟩, Player.Player2⟩

/-- C4 witness: the theorem applied to Tic-Tac-Toe (whose invariant is
`claim_C3`'s first half, proved as `is_terminal_eq_isSome`) at a concrete
terminal state, depth and window. -/
theorem claim_C4_witness :
    (tttGame.is_terminal tttXWinState = true →
      ∃ v, tttGame.terminal_value tttXWinState = some v ∧
        minimax_value_ab_depth tttGame 5 tttXWinState 0 1 = v * 1000000) ∧
    (tttGame.is_terminal tttXWinState = false →
      minimax_value_ab_depth tttGame 0 tttXWinState 0 1 =
        tttGame.heuristic_value tttXWinState) :=
  claim_C4 tttGame (fun t => ttt_is_terminal_eq_isSome t)
    tttXWinState 5 0 1

/-! ## Fail-soft correctness of the alpha-beta loop (towards C1) -/

theorem abLoop_nil (g : Game) (s : g.State) (eval) (maximizing : Bool)
    (value alpha beta : Int) :
    abLoop g s eval maximizing [] value alpha beta = value := rfl

theorem abLoop_cons_max (g : Game) (s : g.State) (eval) (mv : g.Move)
    (rest : List g.Move) (value alpha beta : Int) :
    abLoop g s eval true (mv :: rest) value alpha beta =
      (if beta ≤ max alpha (max value (eval (g.apply_move s mv) alpha beta))
       then max value (eval (g.apply_move s mv) alpha beta)
       else abLoop g s eval true rest
         (max value (eval (g.apply_move s mv) alpha beta))
         (max alpha (max value (eval (g.apply_move s mv) alpha beta)))
         beta) := rfl

theorem abLoop_cons_min (g : Game) (s : g.State) (eval) (mv : g.Move)
    (rest : List g.Move) (value alpha beta : Int) :
    abLoop g s eval false (mv :: rest) value alpha beta =
      (if min beta (min value (eval (g.apply_move s mv) alpha beta)) ≤ alpha
       then min value (eval (g.apply_move s mv) alpha beta)
       else abLoop g s eval false rest
         (min value (eval (g.apply_move s mv) alpha beta))
         alpha
         (min beta (min value (eval (g.apply_move s mv) alpha beta)))) := rfl

theorem abLoop_max_ge (g : Game) (s : g.State) (eval) :
    ∀ (ms : List g.Move) (value alpha beta : Int),
      value ≤ abLoop g s eval true ms value alpha beta := by
  intro ms
  induction ms with
  | nil =>
    intro value alpha beta
    exact le_refl value
  | cons mv rest ih =>
    intro value alpha beta
    rw [abLoop_cons_max]
    split
    · exact le_max_left _ _
    · exact le_trans (le_max_left _ _) (ih _ _ _)

theorem abLoop_min_le (g : Game) (s : g.State) (eval) :
    ∀ (ms : List g.Move) (value alpha beta : Int),
      abLoop g s eval false ms value alpha beta ≤ value := by
  intro ms
  induction ms with
  | nil =>
    intro value alpha beta
    exact le_refl value
  | cons mv rest ih =>
    intro value alpha beta
    rw [abLoop_cons_min]
    split
    · exact min_le_left _ _
    · exact le_trans (ih _ _ _) (min_le_left _ _)

theorem listMax_max (v x : Int) (l : List Int) :
    listMax (max v x) l = max x (listMax v l) := by
  induction l generalizing v with
  | nil =>
    rw [listMax_nil, listMax_nil, max_comm]
  | cons y l ih =>
    rw [listMax_cons, listMax_cons, sup_right_comm]
    exact ih (max v y)

theorem listMin_min (v x : Int) (l : List Int) :
    listMin (min v x) l = min x (listMin v l) := by
  induction l generalizing v with
  | nil =>
    rw [listMin_nil, listMin_nil, min_comm]
  | cons y l ih =>
    rw [listMin_cons, listMin_cons, inf_right_comm]
    exact ih (min v y)

/-- The fail-soft alpha-beta contract: against the window `(a, b)`, the
returned value `r` is exact when it lands strictly inside the window, a sound
upper bound on the true value `v` when it fails low, and a sound lower bound
when it fails high. -/
def FailSoft (r v a b : Int) : Prop :=
  (r ≤ a → v ≤ r) ∧ (b ≤ r → r ≤ v) ∧ (a < r → r < b → r = v)

theorem failSoft_refl (r a b : Int) : FailSoft r r a b :=
  ⟨fun _ => le_refl r, fun _ => le_refl r, fun _ _ => rfl⟩

/-- Fail-soft contract for the maximizing alpha-beta loop: if each child
evaluation satisfies the fail-soft contract against its true value `f m` for
every window, then the loop's result satisfies it against the max of the
initial `value` and all true child values — pruned or not. -/
theorem abLoop_max_failSoft (g : Game) (s : g.State)
    (eval : g.State → Int → Int → Int) (f : g.Move → Int) :
    ∀ (ms : List g.Move) (value alpha beta : Int), alpha < beta →
      (∀ m ∈ ms, ∀ a b, a < b →
        FailSoft (eval (g.apply_move s m) a b) (f m) a b) →
      FailSoft (abLoop g s eval true ms value alpha beta)
        (listMax value (ms.map f)) alpha beta := by
  intro ms
  induction ms with
  | nil =>
    intro value alpha beta _ _
    rw [List.map_nil, listMax_nil, abLoop_nil]
    exact failSoft_refl value alpha beta
  | cons mv rest ih =>
    intro value alpha beta hab hIH
    rw [List.map_cons, listMax_cons, abLoop_cons_max]
    set c := eval (g.apply_move s mv) alpha beta with hc_def
    set cv := f mv with hcv_def
    obtain ⟨hcl, hch, hce⟩ := hIH mv (List.mem_cons_self mv rest) alpha beta hab
    rw [← hc_def, ← hcv_def] at hcl hch hce
    split
    next hbr =>
      have hbv : beta ≤ max value c := by
        rcases le_max_iff.mp hbr with h | h
        · linarith
        · exact h
      refine ⟨?_, ?_, ?_⟩
      · intro hra
        exact absurd (le_trans hbv hra) (not_le.mpr hab)
      · intro _
        have hvV : value ≤ listMax (max value cv) (rest.map f) :=
          le_trans (le_max_left value cv) (le_listMax_init _ _)
        have hcV : c ≤ listMax (max value cv) (rest.map f) := by
          rcases le_or_lt c value with h | h
          · exact le_trans h hvV
          · have hbc : beta ≤ c := by
              rcases le_max_iff.mp hbv with h' | h'
              · linarith
              · exact h'
            exact le_trans (hch hbc)
              (le_trans (le_max_right value cv) (le_listMax_init _ _))
        exact max_le hvV hcV
      · intro _ hrb
        exact absurd (lt_of_le_of_lt hbv hrb) (lt_irrefl beta)
    next hbr =>
      have hab' : max alpha (max value c) < beta := not_le.mp hbr
      obtain ⟨ihl, ihh, ihe⟩ :=
        ih (max value c) (max alpha (max value c)) beta hab'
          (fun m hm => hIH m (List.mem_cons_of_mem mv hm))
      set r := abLoop g s eval true rest (max value c)
        (max alpha (max value c)) beta with hr_def
      have hrge : max value c ≤ r := abLoop_max_ge g s eval rest _ _ _
      set V' := listMax (max value c) (rest.map f) with hVpdef
      set V := listMax (max value cv) (rest.map f) with hV_def
      have hvV : value ≤ V := le_trans (le_max_left _ _) (le_listMax_init _ _)
      have hcvV : cv ≤ V := le_trans (le_max_right _ _) (le_listMax_init _ _)
      have hrestV : ∀ x ∈ rest.map f, x ≤ V := fun x hx => le_listMax_mem _ hx
      have hrestV' : ∀ x ∈ rest.map f, x ≤ V' := fun x hx => le_listMax_mem _ hx
      have hvr : value ≤ r := le_trans (le_max_left _ _) hrge
      have hcr : c ≤ r := le_trans (le_max_right _ _) hrge
      refine ⟨?_, ?_, ?_⟩
      · intro hra
        have hV'r : V' ≤ r := ihl (le_trans hra (le_max_left _ _))
        have hca : c ≤ alpha := le_trans hcr hra
        have hcvr : cv ≤ r := le_trans (hcl hca) hcr
        exact listMax_le (max_le hvr hcvr)
          (fun x hx => le_trans (hrestV' x hx) hV'r)
      · intro hbrr
        have hrV' : r ≤ V' := ihh hbrr
        rcases listMax_eq_init_or_mem (max value c) (rest.map f) with hVpe | hVpm
        · rw [hVpdef, hVpe] at hrV'
          rcases le_max_iff.mp hrV' with h | h
          · exact le_trans h hvV
          · have hbc : beta ≤ c := le_trans hbrr h
            exact le_trans h (le_trans (hch hbc) hcvV)
        · exact le_trans hrV' (hrestV _ hVpm)
      · intro har hrb
        rcases le_or_lt r (max alpha (max value c)) with hra' | hra'
        · have hV'r : V' ≤ r := ihl hra'
          have hrv' : r = max value c := by
            rcases max_choice alpha (max value c) with he | he
            · rw [he] at hra'
              exact absurd hra' (not_le.mpr har)
            · rw [he] at hra'
              exact le_antisymm hra' hrge
          have hcvr : cv ≤ r := by
            rcases le_or_lt c alpha with hca | hca
            · exact le_trans (hcl hca) hcr
            · have hcb : c < beta := lt_of_le_of_lt hcr hrb
              rw [← hce hca hcb]
              exact hcr
          refine le_antisymm ?_ ?_
          · rcases max_choice value c with he | he
            · rw [hrv', he]
              exact hvV
            · rw [hrv', he]
              rcases le_or_lt c alpha with hca | hca
              · exfalso
                rw [hrv', he] at har
                exact absurd hca (not_le.mpr har)
              · have hcb : c < beta := lt_of_le_of_lt hcr hrb
                rw [hce hca hcb]
                exact hcvV
          · exact listMax_le (max_le hvr hcvr)
              (fun x hx => le_trans (hrestV' x hx) hV'r)
        · have hre : r = V' := ihe hra' hrb
          have hcb : c < beta := by
            have hc' : c ≤ max alpha (max value c) :=
              le_trans (le_max_right _ _) (le_max_right _ _)
            linarith
          rcases le_or_lt c alpha with hca | hca
          · have hcvc : cv ≤ c := hcl hca
            have hV'W : V' = max c (listMax value (rest.map f)) := by
              rw [hVpdef]
              exact listMax_max value c (rest.map f)
            have hVW : V = max cv (listMax value (rest.map f)) := by
              rw [hV_def]
              exact listMax_max value cv (rest.map f)
            set W := listMax value (rest.map f) with hW_def
            have hV'a : alpha < V' := hre ▸ har
            have hWeq : V' = W := by
              rcases max_choice c W with he | he
              · exfalso
                have h1 : V' = c := by rw [hV'W, he]
                rw [h1] at hV'a
                linarith
              · rw [hV'W, he]
            have hVeq : V = W := by
              rcases max_choice cv W with he | he
              · exfalso
                have h1 : V = cv := by rw [hVW, he]
                have h2 : W ≤ V := by
                  rw [hVW]
                  exact le_max_right _ _
                have h3 : alpha < V := lt_of_lt_of_le (hWeq ▸ hV'a) h2
                rw [h1] at h3
                linarith
              · rw [hVW, he]
            rw [hre, hWeq, hVeq]
          · have hccv : c = cv := hce hca hcb
            rw [hre, hVpdef, hV_def, hccv]

/-- Fail-soft contract for the minimizing alpha-beta loop: mirror image of
`abLoop_max_failSoft`. -/
theorem abLoop_min_failSoft (g : Game) (s : g.State)
    (eval : g.State → Int → Int → Int) (f : g.Move → Int) :
    ∀ (ms : List g.Move) (value alpha beta : Int), alpha < beta →
      (∀ m ∈ ms, ∀ a b, a < b →
        FailSoft (eval (g.apply_move s m) a b) (f m) a b) →
      FailSoft (abLoop g s eval false ms value alpha beta)
        (listMin value (ms.map f)) alpha beta := by
  intro ms
  induction ms with
  | nil =>
    intro value alpha beta _ _
    rw [List.map_nil, listMin_nil, abLoop_nil]
    exact failSoft_refl value alpha beta
  | cons mv rest ih =>
    intro value alpha beta hab hIH
    rw [List.map_cons, listMin_cons, abLoop_cons_min]
    set c := eval (g.apply_move s mv) alpha beta with hc_def
    set cv := f mv with hcv_def
    obtain ⟨hcl, hch, hce⟩ := hIH mv (List.mem_cons_self mv rest) alpha beta hab
    rw [← hc_def, ← hcv_def] at hcl hch hce
    split
    next har =>
      have hav : min value c ≤ alpha := by
        rcases min_le_iff.mp har with h | h
        · linarith
        · exact h
      refine ⟨?_, ?_, ?_⟩
      · intro _
        have hvV : listMin (min value cv) (rest.map f) ≤ value :=
          le_trans (listMin_le_init _ _) (min_le_left value cv)
        have hcV : listMin (min value cv) (rest.map f) ≤ c := by
          rcases le_or_lt value c with h | h
          · exact le_trans hvV h
          · have hca : c ≤ alpha := by
              rcases min_le_iff.mp hav with h' | h'
              · linarith
              · exact h'
            exact le_trans
              (le_trans (listMin_le_init _ _) (min_le_right value cv))
              (hcl hca)
        exact le_min hvV hcV
      · intro hbrr
        exact absurd (le_trans hbrr hav) (not_le.mpr hab)
      · intro har2 _
        exact absurd (lt_of_lt_of_le har2 hav) (lt_irrefl alpha)
    next hbr =>
      have hab' : alpha < min beta (min value c) := not_le.mp hbr
      obtain ⟨ihl, ihh, ihe⟩ :=
        ih (min value c) alpha (min beta (min value c)) hab'
          (fun m hm => hIH m (List.mem_cons_of_mem mv hm))
      set r := abLoop g s eval false rest (min value c) alpha
        (min beta (min value c)) with hr_def
      have hrle : r ≤ min value c := abLoop_min_le g s eval rest _ _ _
      set V' := listMin (min value c) (rest.map f) with hVpdef
      set V := listMin (min value cv) (rest.map f) with hV_def
      have hvV : V ≤ value := le_trans (listMin_le_init _ _) (min_le_left _ _)
      have hcvV : V ≤ cv := le_trans (listMin_le_init _ _) (min_le_right _ _)
      have hrestV : ∀ x ∈ rest.map f, V ≤ x := fun x hx => listMin_le_mem _ hx
      have hrestV' : ∀ x ∈ rest.map f, V' ≤ x := fun x hx => listMin_le_mem _ hx
      have hvr : r ≤ value := le_trans hrle (min_le_left _ _)
      have hcr : r ≤ c := le_trans hrle (min_le_right _ _)
      refine ⟨?_, ?_, ?_⟩
      · intro hra
        have hrV' : V' ≤ r := ihl hra
        rcases listMin_eq_init_or_mem (min value c) (rest.map f) with hVpe | hVpm
        · rw [hVpdef, hVpe] at hrV'
          rcases min_le_iff.mp hrV' with h | h
          · exact le_trans hvV h
          · have hca : c ≤ alpha := le_trans h hra
            exact le_trans (le_trans hcvV (hcl hca)) h
        · exact le_trans (hrestV _ hVpm) hrV'
      · intro hbrr
        have hrV' : r ≤ V' := ihh (le_trans (min_le_left _ _) hbrr)
        have hbc : beta ≤ c := le_trans hbrr hcr
        have hrcv : r ≤ cv := le_trans hcr (hch hbc)
        exact le_listMin (le_min hvr hrcv)
          (fun x hx => le_trans hrV' (hrestV' x hx))
      · intro har2 hrb
        rcases le_or_lt (min beta (min value c)) r with hra' | hra'
        · have hrV' : r ≤ V' := ihh hra'
          have hrv' : r = min value c := by
            rcases min_choice beta (min value c) with he | he
            · rw [he] at hra'
              exact absurd hra' (not_le.mpr hrb)
            · rw [he] at hra'
              exact le_antisymm hrle hra'
          have hrcv : r ≤ cv := by
            rcases le_or_lt beta c with hbc | hbc
            · exact le_trans hcr (hch hbc)
            · have hca : alpha < c := lt_of_lt_of_le har2 hcr
              rw [← hce hca hbc]
              exact hcr
          refine le_antisymm ?_ ?_
          · exact le_listMin (le_min hvr hrcv)
              (fun x hx => le_trans hrV' (hrestV' x hx))
          · rcases min_choice value c with he | he
            · rw [hrv', he]
              exact hvV
            · rw [hrv', he]
              rcases le_or_lt beta c with hbc | hbc
              · exfalso
                rw [hrv', he] at hrb
                exact absurd hbc (not_le.mpr hrb)
              · have hca : alpha < c := lt_of_lt_of_le har2 hcr
                rw [hce hca hbc]
                exact hcvV
        · have hre : r = V' := ihe har2 hra'
          have hca : alpha < c := by
            have hc' : min beta (min value c) ≤ c :=
              le_trans (min_le_right _ _) (min_le_right _ _)
            linarith
          rcases le_or_lt beta c with hbc | hbc
          · have hccv : c ≤ cv := hch hbc
            have hV'W : V' = min c (listMin value (rest.map f)) := by
              rw [hVpdef]
              exact listMin_min value c (rest.map f)
            have hVW : V = min cv (listMin value (rest.map f)) := by
              rw [hV_def]
              exact listMin_min value cv (rest.map f)
            set W := listMin value (rest.map f) with hW_def
            have hV'b : V' < beta := hre ▸ hrb
            have hWeq : V' = W := by
              rcases min_choice c W with he | he
              · exfalso
                have h1 : V' = c := by rw [hV'W, he]
                rw [h1] at hV'b
                linarith
              · rw [hV'W, he]
            have hVeq : V = W := by
              rcases min_choice cv W with he | he
              · exfalso
                have h1 : V = cv := by rw [hVW, he]
                have h2 : V ≤ W := by
                  rw [hVW]
                  exact min_le_right _ _
                have h3 : V < beta := lt_of_le_of_lt h2 (hWeq ▸ hV'b)
                rw [h1] at h3
                linarith
              · rw [hVW, he]
            rw [hre, hWeq, hVeq]
          · have hccv : c = cv := hce hca hbc
            rw [hre, hVpdef, hV_def, hccv]

/-! ## From the loop contract to C1 -/

theorem SearchOK_zero {g : Game} {s : g.State} (h : SearchOK g 0 s = true) :
    g.is_terminal s = true ∧ terminalOK g s = true := by
  unfold SearchOK at h
  rw [Bool.and_eq_true] at h
  exact h

theorem SearchOK_succ_terminal {g : Game} {n : Nat} {s : g.State}
    (h : SearchOK g (n + 1) s = true) (ht : g.is_terminal s = true) :
    terminalOK g s = true := by
  unfold SearchOK at h
  rw [if_pos ht] at h
  exact h

theorem SearchOK_succ_nonterminal {g : Game} {n : Nat} {s : g.State}
    (h : SearchOK g (n + 1) s = true) (ht : g.is_terminal s = false) :
    g.legal_moves s ≠ [] ∧
      ∀ m ∈ g.legal_moves s, SearchOK g n (g.apply_move s m) = true := by
  unfold SearchOK at h
  rw [if_neg (by simp [ht]), Bool.and_eq_true] at h
  constructor
  · intro hnil
    rw [hnil] at h
    simp at h
  · intro m hm
    exact List.all_eq_true.mp h.2 m hm

theorem terminalOK_spec {g : Game} {s : g.State} (h : terminalOK g s = true) :
    ∃ v, g.terminal_value s = some v ∧ intMin < v ∧ v < intMax := by
  unfold terminalOK at h
  cases htv : g.terminal_value s with
  | none =>
    rw [htv] at h
    cases h
  | some v =>
    rw [htv] at h
    rw [Bool.and_eq_true, decide_eq_true_eq, decide_eq_true_eq] at h
    exact ⟨v, rfl, h.1, h.2⟩

theorem terminalOK_getD_range {g : Game} {s : g.State}
    (h : terminalOK g s = true) :
    intMin < (g.terminal_value s).getD 0 ∧ (g.terminal_value s).getD 0 < intMax := by
  obtain ⟨v, hv, h1, h2⟩ := terminalOK_spec h
  rw [hv]
  exact ⟨h1, h2⟩

theorem max?_getD_eq_listMax_of_lb (x : Int) (l : List Int)
    (hx : intMin ≤ x) :
    ((x :: l).max?).getD 0 = listMax intMin (x :: l) := by
  rw [listMax_cons, max_eq_right hx]
  rfl

theorem min?_getD_eq_listMin_of_ub (x : Int) (l : List Int)
    (hx : x ≤ intMax) :
    ((x :: l).min?).getD 0 = listMin intMax (x :: l) := by
  rw [listMin_cons, min_eq_right hx]
  rfl

/-- Under `SearchOK`, the plain minimax value lies strictly inside the `i32`
range (it is always one of the tree's terminal values). -/
theorem minimax_value_range (g : Game) :
    ∀ (n : Nat) (s : g.State), SearchOK g n s = true →
      intMin < minimax_value g n s ∧ minimax_value g n s < intMax := by
  intro n
  induction n with
  | zero =>
    intro s hok
    obtain ⟨ht, htok⟩ := SearchOK_zero hok
    simpa [minimax_value, ht] using terminalOK_getD_range htok
  | succ n ih =>
    intro s hok
    by_cases ht : g.is_terminal s = true
    · simpa [minimax_value, ht]
        using terminalOK_getD_range (SearchOK_succ_terminal hok ht)
    · have ht' : g.is_terminal s = false := Bool.eq_false_iff.mpr ht
      obtain ⟨hne, hch⟩ := SearchOK_succ_nonterminal hok ht'
      obtain ⟨m0, rest0, hL⟩ : ∃ m0 rest0, g.legal_moves s = m0 :: rest0 := by
        cases hLM : g.legal_moves s with
        | nil => exact absurd hLM hne
        | cons a l => exact ⟨a, l, rfl⟩
      have hrange : ∀ m ∈ g.legal_moves s,
          intMin < minimax_value g n (g.apply_move s m) ∧
            minimax_value g n (g.apply_move s m) < intMax :=
        fun m hm => ih (g.apply_move s m) (hch m hm)
      have hm0 : m0 ∈ g.legal_moves s := by
        rw [hL]
        exact List.mem_cons_self _ _
      have hrest : ∀ x ∈ rest0.map (fun mv => minimax_value g n (g.apply_move s mv)),
          intMin < x ∧ x < intMax := by
        intro x hx
        obtain ⟨m, hm, hmx⟩ := List.mem_map.mp hx
        rw [← hmx]
        exact hrange m (by rw [hL]; exact List.mem_cons_of_mem _ hm)
      cases hp : g.current_player s with
      | Player1 =>
        have hstep : minimax_value g (n + 1) s =
            (((g.legal_moves s).map
              (fun mv => minimax_value g n (g.apply_move s mv))).max?).getD 0 := by
          simp [minimax_value, ht', hp]
        rw [hstep, hL, List.map_cons]
        rw [max?_getD_eq_listMax_of_lb _ _ (le_of_lt (hrange m0 hm0).1)]
        rw [listMax_cons,
          max_eq_right (le_of_lt (hrange m0 hm0).1)]
        constructor
        · exact lt_of_lt_of_le (hrange m0 hm0).1 (le_listMax_init _ _)
        · rcases listMax_eq_init_or_mem (minimax_value g n (g.apply_move s m0))
            (rest0.map (fun mv => minimax_value g n (g.apply_move s mv))) with he | hm
          · rw [he]
            exact (hrange m0 hm0).2
          · exact (hrest _ hm).2
      | Player2 =>
        have hstep : minimax_value g (n + 1) s =
            (((g.legal_moves s).map
              (fun mv => minimax_value g n (g.apply_move s mv))).min?).getD 0 := by
          simp [minimax_value, ht', hp]
        rw [hstep, hL, List.map_cons]
        rw [min?_getD_eq_listMin_of_ub _ _ (le_of_lt (hrange m0 hm0).2)]
        rw [listMin_cons,
          min_eq_right (le_of_lt (hrange m0 hm0).2)]
        constructor
        · rcases listMin_eq_init_or_mem (minimax_value g n (g.apply_move s m0))
            (rest0.map (fun mv => minimax_value g n (g.apply_move s mv))) with he | hm
          · rw [he]
            exact (hrange m0 hm0).1
          · exact (hrest _ hm).1
        · exact lt_of_le_of_lt (listMin_le_init _ _) (hrange m0 hm0).2

/-- Fail-soft correctness of `minimax_value_ab` against `minimax_value`,
for every window, by induction over the fuel. -/
theorem minimax_value_ab_failSoft (g : Game) :
    ∀ (n : Nat) (s : g.State), SearchOK g n s = true →
      ∀ (alpha beta : Int), alpha < beta →
        FailSoft (minimax_value_ab g n s alpha beta) (minimax_value g n s)
          alpha beta := by
  intro n
  induction n with
  | zero =>
    intro s hok alpha beta _
    obtain ⟨ht, _⟩ := SearchOK_zero hok
    have h1 : minimax_value_ab g 0 s alpha beta = (g.terminal_value s).getD 0 := by
      simp [minimax_value_ab, ht]
    have h2 : minimax_value g 0 s = (g.terminal_value s).getD 0 := by
      simp [minimax_value, ht]
    rw [h1, h2]
    exact failSoft_refl _ _ _
  | succ n ih =>
    intro s hok alpha beta hab
    by_cases ht : g.is_terminal s = true
    · have h1 : minimax_value_ab g (n + 1) s alpha beta =
          (g.terminal_value s).getD 0 := by
        simp [minimax_value_ab, ht]
      have h2 : minimax_value g (n + 1) s = (g.terminal_value s).getD 0 := by
        simp [minimax_value, ht]
      rw [h1, h2]
      exact failSoft_refl _ _ _
    · have ht' : g.is_terminal s = false := Bool.eq_false_iff.mpr ht
      obtain ⟨hne, hch⟩ := SearchOK_succ_nonterminal hok ht'
      have hchild : ∀ m ∈ sortedMoves g s, ∀ a b, a < b →
          FailSoft (minimax_value_ab g n (g.apply_move s m) a b)
            (minimax_value g n (g.apply_move s m)) a b := by
        intro m hm a b hab'
        exact ih (g.apply_move s m)
          (hch m ((sortedMoves_perm g s).mem_iff.mp hm)) a b hab'
      obtain ⟨m0, rest0, hL⟩ : ∃ m0 rest0, g.legal_moves s = m0 :: rest0 := by
        cases hLM : g.legal_moves s with
        | nil => exact absurd hLM hne
        | cons a l => exact ⟨a, l, rfl⟩
      have hm0 : m0 ∈ g.legal_moves s := by
        rw [hL]
        exact List.mem_cons_self _ _
      have hrange : ∀ m ∈ g.legal_moves s,
          intMin < minimax_value g n (g.apply_move s m) ∧
            minimax_value g n (g.apply_move s m) < intMax :=
        fun m hm => minimax_value_range g n _ (hch m hm)
      have hperm : ((sortedMoves g s).map
          (fun mv => minimax_value g n (g.apply_move s mv))).Perm
          ((g.legal_moves s).map
            (fun mv => minimax_value g n (g.apply_move s mv))) :=
        (sortedMoves_perm g s).map _
      cases hp : g.current_player s with
      | Player1 =>
        have hstep : minimax_value g (n + 1) s =
            (((g.legal_moves s).map
              (fun mv => minimax_value g n (g.apply_move s mv))).max?).getD 0 := by
          simp [minimax_value, ht', hp]
        have hmm : minimax_value g (n + 1) s =
            listMax intMin ((sortedMoves g s).map
              (fun mv => minimax_value g n (g.apply_move s mv))) := by
          rw [hstep, listMax_perm hperm, hL, List.map_cons]
          exact max?_getD_eq_listMax_of_lb _ _ (le_of_lt (hrange m0 hm0).1)
        have hab2 : minimax_value_ab g (n + 1) s alpha beta =
            abLoop g s (minimax_value_ab g n) true (sortedMoves g s) intMin
              alpha beta := by
          simp [minimax_value_ab, ht', hp]
        rw [hab2, hmm]
        exact abLoop_max_failSoft g s (minimax_value_ab g n)
          (fun mv => minimax_value g n (g.apply_move s mv)) (sortedMoves g s)
          intMin alpha beta hab hchild
      | Player2 =>
        have hstep : minimax_value g (n + 1) s =
            (((g.legal_moves s).map
              (fun mv => minimax_value g n (g.apply_move s mv))).min?).getD 0 := by
          simp [minimax_value, ht', hp]
        have hmm : minimax_value g (n + 1) s =
            listMin intMax ((sortedMoves g s).map
              (fun mv => minimax_value g n (g.apply_move s mv))) := by
          rw [hstep, listMin_perm hperm, hL, List.map_cons]
          exact min?_getD_eq_listMin_of_ub _ _ (le_of_lt (hrange m0 hm0).2)
        have hab2 : minimax_value_ab g (n + 1) s alpha beta =
            abLoop g s (minimax_value_ab g n) false (sortedMoves g s) intMax
              alpha beta := by
          have hb : (g.current_player s == Player.Player1) = false := by
            rw [hp]
            rfl
          simp [minimax_value_ab, ht', hb]
        rw [hab2, hmm]
        exact abLoop_min_failSoft g s (minimax_value_ab g n)
          (fun mv => minimax_value g n (g.apply_move s mv)) (sortedMoves g s)
          intMax alpha beta hab hchild

/-- C1: for every game state whose reachable game tree is finite and
well-formed — `SearchOK g n s` bounds the tree by `n` plies, guarantees a
`Some` in-range terminal value at each terminal leaf and a legal move at each
non-terminal node; both concrete games satisfy it on every state reachable by
legal play — the alpha-beta search from the full window,
`minimax_value_ab(state, i32::MIN, i32::MAX)` (i.e. `minimax_value_ab_root`),
returns exactly the same value as plain exhaustive `minimax_value(state)`,
regardless of the move ordering applied (the game `g`, and hence its
`move_ordering_key`, is arbitrary). -/
theorem claim_C1 (g : Game) (n : Nat) (s : g.State)
    (hok : SearchOK g n s = true) :
    minimax_value_ab_root g n s = minimax_value g n s := by
  obtain ⟨hl, hh, he⟩ := minimax_value_ab_failSoft g n s hok intMin intMax
    (by norm_num [intMin, intMax])
  obtain ⟨hv1, hv2⟩ := minimax_value_range g n s hok
  unfold minimax_value_ab_root
  rcases le_or_lt (minimax_value_ab g n s intMin intMax) intMin with h | h
  · exfalso
    have := hl h
    linarith
  · rcases le_or_lt intMax (minimax_value_ab g n s intMin intMax) with h2 | h2
    · exfalso
      have := hh h2
      linarith
    · exact he h h2

/-- The board `"XOX.XO..."` with Player2 to move: a reachable non-terminal
position whose remaining game tree has height 4. -/
def tttC1State : TicTacToeState :=
  ⟨⟨[Cell.X, Cell.O, Cell.X, Cell.Empty, Cell.X, Cell.O,
     Cell.Empty, Cell.Empty, Cell.Empty], by decide⟩, Player.Player2⟩

/-- C1 witness: the hypotheses hold for the Tic-Tac-Toe board
`"XOX.XO..."` (Player2 to move) with fuel 4, so alpha-beta from the full
window equals plain minimax there. -/
theorem claim_C1_witness :
    SearchOK tttGame 4 tttC1State = true ∧
    minimax_value_ab_root tttGame 4 tttC1State =
      minimax_value tttGame 4 tttC1State :=
  ⟨by decide, claim_C1 tttGame 4 tttC1State (by decide)⟩

/-! ## Range lemmas for the alpha-beta evaluators (towards C6) -/

theorem minimax_value_ab_range (g : Game) (n : Nat) (s : g.State)
    (hok : SearchOK g n s = true) (alpha beta : Int)
    (h1 : intMin ≤ alpha) (h2 : alpha < beta) (h3 : beta ≤ intMax) :
    intMin < minimax_value_ab g n s alpha beta ∧
      minimax_value_ab g n s alpha beta < intMax := by
  obtain ⟨hl, hh, _⟩ := minimax_value_ab_failSoft g n s hok alpha beta h2
  obtain ⟨hv1, hv2⟩ := minimax_value_range g n s hok
  constructor
  · rcases le_or_lt (minimax_value_ab g n s alpha beta) alpha with h | h
    · have := hl h
      linarith
    · linarith
  · rcases le_or_lt beta (minimax_value_ab g n s alpha beta) with h | h
    · have := hh h
      linarith
    · linarith

theorem abLoop_max_range (g : Game) (s : g.State) (eval) :
    ∀ (ms : List g.Move) (value alpha beta : Int),
      intMin ≤ alpha → alpha < beta → beta ≤ intMax → value < intMax →
      (intMin < value ∨ ms ≠ []) →
      (∀ m ∈ ms, ∀ a b, intMin ≤ a → a < b → b ≤ intMax →
        intMin < eval (g.apply_move s m) a b ∧
          eval (g.apply_move s m) a b < intMax) →
      intMin < abLoop g s eval true ms value alpha beta ∧
        abLoop g s eval true ms value alpha beta < intMax := by
  intro ms
  induction ms with
  | nil =>
    intro value alpha beta _ _ _ hvm hlow _
    rw [abLoop_nil]
    rcases hlow with h | h
    · exact ⟨h, hvm⟩
    · exact absurd rfl h
  | cons mv rest ih =>
    intro value alpha beta h1 h2 h3 hvm _ hev
    rw [abLoop_cons_max]
    have hc := hev mv (List.mem_cons_self _ _) alpha beta h1 h2 h3
    have hv'1 : intMin < max value (eval (g.apply_move s mv) alpha beta) :=
      lt_of_lt_of_le hc.1 (le_max_right _ _)
    have hv'2 : max value (eval (g.apply_move s mv) alpha beta) < intMax :=
      max_lt hvm hc.2
    split
    next => exact ⟨hv'1, hv'2⟩
    next hbr =>
      exact ih (max value (eval (g.apply_move s mv) alpha beta))
        (max alpha (max value (eval (g.apply_move s mv) alpha beta))) beta
        (le_trans h1 (le_max_left _ _)) (not_le.mp hbr) h3 hv'2 (Or.inl hv'1)
        (fun m hm => hev m (List.mem_cons_of_mem _ hm))

theorem abLoop_min_range (g : Game) (s : g.State) (eval) :
    ∀ (ms : List g.Move) (value alpha beta : Int),
      intMin ≤ alpha → alpha < beta → beta ≤ intMax → intMin < value →
      (value < intMax ∨ ms ≠ []) →
      (∀ m ∈ ms, ∀ a b, intMin ≤ a → a < b → b ≤ intMax →
        intMin < eval (g.apply_move s m) a b ∧
          eval (g.apply_move s m) a b < intMax) →
      intMin < abLoop g s eval false ms value alpha beta ∧
        abLoop g s eval false ms value alpha beta < intMax := by
  intro ms
  induction ms with
  | nil =>
    intro value alpha beta _ _ _ hvm hhigh _
    rw [abLoop_nil]
    rcases hhigh with h | h
    · exact ⟨hvm, h⟩
    · exact absurd rfl h
  | cons mv rest ih =>
    intro value alpha beta h1 h2 h3 hvm _ hev
    rw [abLoop_cons_min]
    have hc := hev mv (List.mem_cons_self _ _) alpha beta h1 h2 h3
    have hv'1 : intMin < min value (eval (g.apply_move s mv) alpha beta) :=
      lt_min hvm hc.1
    have hv'2 : min value (eval (g.apply_move s mv) alpha beta) < intMax :=
      lt_of_le_of_lt (min_le_right _ _) hc.2
    split
    next => exact ⟨hv'1, hv'2⟩
    next hbr =>
      exact ih (min value (eval (g.apply_move s mv) alpha beta)) alpha
        (min beta (min value (eval (g.apply_move s mv) alpha beta)))
        h1 (not_le.mp hbr) (le_trans (min_le_left _ _) h3) hv'1 (Or.inl hv'2)
        (fun m hm => hev m (List.mem_cons_of_mem _ hm))

theorem sortedMoves_ne_nil {g : Game} {s : g.State}
    (h : g.legal_moves s ≠ []) : sortedMoves g s ≠ [] := by
  intro h0
  apply h
  have hp := sortedMoves_perm g s
  rw [h0] at hp
  exact (List.Perm.nil_eq hp).symm

theorem minimax_value_ab_depth_range (g : Game) :
    ∀ (d : Nat) (s : g.State), DepthOK g d s = true →
      ∀ (alpha beta : Int), intMin ≤ alpha → alpha < beta → beta ≤ intMax →
        intMin < minimax_value_ab_depth g d s alpha beta ∧
          minimax_value_ab_depth g d s alpha beta < intMax := by
  intro d
  induction d with
  | zero =>
    intro s hok alpha beta _ _ _
    unfold DepthOK at hok
    cases htv : g.terminal_value s with
    | some v =>
      rw [htv] at hok
      rw [Bool.and_eq_true, decide_eq_true_eq, decide_eq_true_eq] at hok
      simpa [minimax_value_ab_depth, htv] using hok
    | none =>
      rw [htv] at hok
      rw [Bool.and_eq_true, decide_eq_true_eq, decide_eq_true_eq] at hok
      simpa [minimax_value_ab_depth, htv] using hok
  | succ d ih =>
    intro s hok alpha beta h1 h2 h3
    unfold DepthOK at hok
    cases htv : g.terminal_value s with
    | some v =>
      rw [htv] at hok
      rw [Bool.and_eq_true, decide_eq_true_eq, decide_eq_true_eq] at hok
      simpa [minimax_value_ab_depth, htv] using hok
    | none =>
      rw [htv] at hok
      rw [Bool.and_eq_true] at hok
      have hne : g.legal_moves s ≠ [] := by
        intro h0
        rw [h0] at hok
        simp at hok
      have hch : ∀ m ∈ g.legal_moves s, DepthOK g d (g.apply_move s m) = true :=
        List.all_eq_true.mp hok.2
      have hchs : ∀ m ∈ sortedMoves g s, ∀ a b, intMin ≤ a → a < b →
          b ≤ intMax →
          intMin < minimax_value_ab_depth g d (g.apply_move s m) a b ∧
            minimax_value_ab_depth g d (g.apply_move s m) a b < intMax :=
        fun m hm a b ha hab hb =>
          ih (g.apply_move s m) (hch m ((sortedMoves_perm g s).mem_iff.mp hm))
            a b ha hab hb
      cases hp : g.current_player s with
      | Player1 =>
        have hb : (g.current_player s == Player.Player1) = true := by
          rw [hp]
          rfl
        have hstep : minimax_value_ab_depth g (d + 1) s alpha beta =
            abLoop g s (minimax_value_ab_depth g d) true (sortedMoves g s)
              intMin alpha beta := by
          simp [minimax_value_ab_depth, htv, hb]
        rw [hstep]
        exact abLoop_max_range g s _ (sortedMoves g s) intMin alpha beta h1 h2
          h3 (by norm_num [intMin, intMax]) (Or.inr (sortedMoves_ne_nil hne))
          hchs
      | Player2 =>
        have hb : (g.current_player s == Player.Player1) = false := by
          rw [hp]
          rfl
        have hstep : minimax_value_ab_depth g (d + 1) s alpha beta =
            abLoop g s (minimax_value_ab_depth g d) false (sortedMoves g s)
              intMax alpha beta := by
          simp [minimax_value_ab_depth, htv, hb]
        rw [hstep]
        exact abLoop_min_range g s _ (sortedMoves g s) intMax alpha beta h1 h2
          h3 (by norm_num [intMin, intMax]) (Or.inr (sortedMoves_ne_nil hne))
          hchs

/-! ## Behavior of the best-move loops (towards C6 and C9) -/

theorem bestLoopPlain_some (g : Game) (s : g.State) (eval) (maximizing : Bool) :
    ∀ (ms : List g.Move) (bv : Int) (m : g.Move),
      (bestLoopPlain g s eval maximizing ms bv (some m)).isSome = true := by
  intro ms
  induction ms with
  | nil =>
    intro bv m
    rfl
  | cons mv rest ih =>
    intro bv m
    simp only [bestLoopPlain]
    repeat' split
    all_goals exact ih _ _

theorem bestLoopPlain_mem (g : Game) (s : g.State) (eval) (maximizing : Bool) :
    ∀ (ms : List g.Move) (bv : Int) (bm : Option g.Move) (m : g.Move) (v : Int),
      bestLoopPlain g s eval maximizing ms bv bm = some (m, v) →
      bm = some m ∨ m ∈ ms := by
  intro ms
  induction ms with
  | nil =>
    intro bv bm m v h
    cases bm with
    | none => cases h
    | some m' =>
      simp only [bestLoopPlain, Option.map_some', Option.some.injEq,
        Prod.mk.injEq] at h
      exact Or.inl (by rw [h.1])
  | cons mv rest ih =>
    intro bv bm m v h
    simp only [bestLoopPlain] at h
    repeat' split at h
    all_goals try exact (ih _ _ _ _ h).elim (fun h' =>
      Or.inr (Option.some.inj h' ▸ List.mem_cons_self mv rest)) (fun h' =>
      Or.inr (List.mem_cons_of_mem _ h'))
    all_goals exact (ih _ _ _ _ h).elim Or.inl (fun h' =>
      Or.inr (List.mem_cons_of_mem _ h'))

theorem bestLoopPlain_cons_isSome (g : Game) (s : g.State) (eval)
    (maximizing : Bool) (mv : g.Move) (rest : List g.Move) (bv : Int)
    (hfirst : if maximizing = true then bv < eval (g.apply_move s mv)
      else eval (g.apply_move s mv) < bv) :
    (bestLoopPlain g s eval maximizing (mv :: rest) bv none).isSome = true := by
  simp only [bestLoopPlain, if_pos hfirst]
  exact bestLoopPlain_some g s eval maximizing rest _ mv

theorem bestLoopAB_some (g : Game) (s : g.State) (eval) (maximizing : Bool) :
    ∀ (ms : List g.Move) (bv : Int) (m : g.Move) (alpha beta : Int),
      (bestLoopAB g s eval maximizing ms bv (some m) alpha beta).isSome
        = true := by
  intro ms
  induction ms with
  | nil =>
    intro bv m alpha beta
    rfl
  | cons mv rest ih =>
    intro bv m alpha beta
    simp only [bestLoopAB]
    repeat' split
    all_goals try rfl
    all_goals exact ih _ _ _ _

theorem bestLoopAB_mem (g : Game) (s : g.State) (eval) (maximizing : Bool) :
    ∀ (ms : List g.Move) (bv : Int) (bm : Option g.Move) (alpha beta : Int)
      (m : g.Move) (v : Int),
      bestLoopAB g s eval maximizing ms bv bm alpha beta = some (m, v) →
      bm = some m ∨ m ∈ ms := by
  intro ms
  induction ms with
  | nil =>
    intro bv bm alpha beta m v h
    cases bm with
    | none => cases h
    | some m' =>
      simp only [bestLoopAB, Option.map_some', Option.some.injEq,
        Prod.mk.injEq] at h
      exact Or.inl (by rw [h.1])
  | cons mv rest ih =>
    intro bv bm alpha beta m v h
    simp only [bestLoopAB] at h
    repeat' split at h
    all_goals try exact (ih _ _ _ _ _ _ h).elim (fun h' =>
      Or.inr (Option.some.inj h' ▸ List.mem_cons_self mv rest)) (fun h' =>
      Or.inr (List.mem_cons_of_mem _ h'))
    all_goals try exact (ih _ _ _ _ _ _ h).elim Or.inl (fun h' =>
      Or.inr (List.mem_cons_of_mem _ h'))
    all_goals try (simp only [Option.map_some', Option.some.injEq,
      Prod.mk.injEq] at h; exact Or.inr (h.1 ▸ List.mem_cons_self mv rest))
    all_goals
      cases bm with
      | none => cases h
      | some m' =>
        simp only [Option.map_some', Option.some.injEq, Prod.mk.injEq] at h
        exact Or.inl (by rw [h.1])

theorem bestLoopAB_cons_isSome (g : Game) (s : g.State) (eval)
    (maximizing : Bool) (mv : g.Move) (rest : List g.Move) (bv : Int)
    (alpha beta : Int)
    (hfirst : if maximizing = true
      then bv < eval (g.apply_move s mv) alpha beta
      else eval (g.apply_move s mv) alpha beta < bv) :
    (bestLoopAB g s eval maximizing (mv :: rest) bv none alpha
      beta).isSome = true := by
  simp only [bestLoopAB, if_pos hfirst]
  repeat' split
  all_goals try rfl
  all_goals exact bestLoopAB_some g s eval maximizing rest _ mv _ _

theorem u32_wrapping_sub_one_eq {d : Nat} (h1 : 1 ≤ d) (h2 : d ≤ 2 ^ 32) :
    u32_wrapping_sub_one d = d - 1 := by
  unfold u32_wrapping_sub_one
  have he : (2 : Nat) ^ 32 = 4294967296 := by norm_num
  rw [he] at h2 ⊢
  omega

/-- C6: for every state of either concrete game in which every non-terminal
state reachable from it has at least one legal move (captured, together with
tree-finiteness and value-range well-formedness, by `SearchOK`/`DepthOK` on
the root's children — both hold for all reachable states of the two concrete
games), and with depth ≥ 1 for the depth-limited variant, each of
`minimax_best_move`, `minimax_best_move_ab`, and `minimax_best_move_ab_depth`
returns `None` if and only if `state.legal_moves()` is empty; otherwise it
returns `Some` move drawn from `legal_moves` together with a value. -/
theorem claim_C6 (g : Game) (n d : Nat) (s : g.State)
    (hch : ∀ m ∈ g.legal_moves s, SearchOK g n (g.apply_move s m) = true)
    (hd1 : 1 ≤ d) (hd2 : d ≤ 2 ^ 32)
    (hdp : ∀ m ∈ g.legal_moves s, DepthOK g (d - 1) (g.apply_move s m) = true) :
    ((minimax_best_move g n s = none ↔ g.legal_moves s = []) ∧
      ∀ m v, minimax_best_move g n s = some (m, v) → m ∈ g.legal_moves s) ∧
    ((minimax_best_move_ab g n s = none ↔ g.legal_moves s = []) ∧
      ∀ m v, minimax_best_move_ab g n s = some (m, v) → m ∈ g.legal_moves s) ∧
    ((minimax_best_move_ab_depth g s d = none ↔ g.legal_moves s = []) ∧
      ∀ m v, minimax_best_move_ab_depth g s d = some (m, v) →
        m ∈ g.legal_moves s) := by
  by_cases hemp : g.legal_moves s = []
  · have he1 : (g.legal_moves s).isEmpty = true := by
      rw [hemp]
      rfl
    have hb1 : minimax_best_move g n s = none := by
      simp [minimax_best_move, he1]
    have hb2 : minimax_best_move_ab g n s = none := by
      simp [minimax_best_move_ab, minimax_best_move_ab_inner, he1]
    have hb3 : minimax_best_move_ab_depth g s d = none := by
      simp [minimax_best_move_ab_depth, minimax_best_move_ab_depth_inner, he1]
    refine ⟨⟨Iff.intro (fun _ => hemp) (fun _ => hb1), ?_⟩,
      ⟨Iff.intro (fun _ => hemp) (fun _ => hb2), ?_⟩,
      ⟨Iff.intro (fun _ => hemp) (fun _ => hb3), ?_⟩⟩
    · intro m v hmv
      rw [hb1] at hmv
      cases hmv
    · intro m v hmv
      rw [hb2] at hmv
      cases hmv
    · intro m v hmv
      rw [hb3] at hmv
      cases hmv
  · have he1 : (g.legal_moves s).isEmpty = false := by
      cases hL : g.legal_moves s with
      | nil => exact absurd hL hemp
      | cons a l => rfl
    have hne1 : ¬((g.legal_moves s).isEmpty = true) := by
      rw [he1]
      exact Bool.false_ne_true
    obtain ⟨m0, rest0, hL⟩ : ∃ m0 rest0, g.legal_moves s = m0 :: rest0 := by
      cases hLM : g.legal_moves s with
      | nil => exact absurd hLM hemp
      | cons a l => exact ⟨a, l, rfl⟩
    have hm0 : m0 ∈ g.legal_moves s := by
      rw [hL]
      exact List.mem_cons_self _ _
    obtain ⟨m1, rest1, hS⟩ : ∃ m1 rest1, sortedMoves g s = m1 :: rest1 := by
      cases hSM : sortedMoves g s with
      | nil => exact absurd hSM (sortedMoves_ne_nil hemp)
      | cons a l => exact ⟨a, l, rfl⟩
    have hm1 : m1 ∈ g.legal_moves s := by
      apply (sortedMoves_perm g s).mem_iff.mp
      rw [hS]
      exact List.mem_cons_self _ _
    have hmm : intMin < intMax := by norm_num [intMin, intMax]
    -- plain best move is Some
    have h1 : (minimax_best_move g n s).isSome = true := by
      unfold minimax_best_move
      rw [if_neg hne1, hL]
      apply bestLoopPlain_cons_isSome
      have hr := minimax_value_range g n (g.apply_move s m0) (hch m0 hm0)
      cases hpb : g.current_player s == Player.Player1 with
      | false => simpa using hr.2
      | true => simpa using hr.1
    -- alpha-beta best move is Some
    have h2 : (minimax_best_move_ab g n s).isSome = true := by
      unfold minimax_best_move_ab minimax_best_move_ab_inner
      rw [if_neg hne1, hS]
      apply bestLoopAB_cons_isSome
      have hr := minimax_value_ab_range g n (g.apply_move s m1)
        (hch m1 hm1) intMin intMax (le_refl _) hmm (le_refl _)
      cases hpb : g.current_player s == Player.Player1 with
      | false => simpa using hr.2
      | true => simpa using hr.1
    -- depth-limited best move is Some
    have h3 : (minimax_best_move_ab_depth g s d).isSome = true := by
      unfold minimax_best_move_ab_depth minimax_best_move_ab_depth_inner
      rw [if_neg hne1, u32_wrapping_sub_one_eq hd1 hd2, hS]
      apply bestLoopAB_cons_isSome
      have hr := minimax_value_ab_depth_range g (d - 1) (g.apply_move s m1)
        (hdp m1 hm1) intMin intMax (le_refl _) hmm (le_refl _)
      cases hpb : g.current_player s == Player.Player1 with
      | false => simpa using hr.2
      | true => simpa using hr.1
    refine ⟨⟨?_, ?_⟩, ⟨?_, ?_⟩, ⟨?_, ?_⟩⟩
    · constructor
      · intro h0
        rw [h0] at h1
        cases h1
      · intro h0
        exact absurd h0 hemp
    · intro m v hmv
      unfold minimax_best_move at hmv
      rw [if_neg hne1] at hmv
      rcases bestLoopPlain_mem g s _ _ _ _ _ _ _ hmv with h' | h'
      · cases h'
      · exact h'
    · constructor
      · intro h0
        rw [h0] at h2
        cases h2
      · intro h0
        exact absurd h0 hemp
    · intro m v hmv
      unfold minimax_best_move_ab minimax_best_move_ab_inner at hmv
      rw [if_neg hne1] at hmv
      rcases bestLoopAB_mem g s _ _ _ _ _ _ _ _ _ hmv with h' | h'
      · cases h'
      · exact (sortedMoves_perm g s).mem_iff.mp h'
    · constructor
      · intro h0
        rw [h0] at h3
        cases h3
      · intro h0
        exact absurd h0 hemp
    · intro m v hmv
      unfold minimax_best_move_ab_depth minimax_best_move_ab_depth_inner at hmv
      rw [if_neg hne1] at hmv
      rcases bestLoopAB_mem g s _ _ _ _ _ _ _ _ _ hmv with h' | h'
      · cases h'
      · exact (sortedMoves_perm g s).mem_iff.mp h'

/-- C6 witness: the hypotheses hold for Tic-Tac-Toe at the board
`"XOX.XO..."` with fuel 3 and depth 1, where all three best-move queries
return `Some` move from `legal_moves`. -/
theorem claim_C6_witness :
    ((minimax_best_move tttGame 3 tttC1State = none ↔
        tttGame.legal_moves tttC1State = []) ∧
      ∀ m v, minimax_best_move tttGame 3 tttC1State = some (m, v) →
        m ∈ tttGame.legal_moves tttC1State) ∧
    ((minimax_best_move_ab tttGame 3 tttC1State = none ↔
        tttGame.legal_moves tttC1State = []) ∧
      ∀ m v, minimax_best_move_ab tttGame 3 tttC1State = some (m, v) →
        m ∈ tttGame.legal_moves tttC1State) ∧
    ((minimax_best_move_ab_depth tttGame tttC1State 1 = none ↔
        tttGame.legal_moves tttC1State = []) ∧
      ∀ m v, minimax_best_move_ab_depth tttGame tttC1State 1 = some (m, v) →
        m ∈ tttGame.legal_moves tttC1State) :=
  claim_C6 tttGame 3 1 tttC1State (by decide) (le_refl 1) (by norm_num)
    (by decide)

/-! ## C9: the unguarded `depth - 1` in `minimax_best_move_ab_depth_inner` -/

/-- C9: for every non-terminal state with at least one legal move, calling
`minimax_best_move_ab_depth(state, 0)` evaluates `depth - 1` with
`depth = 0` on an unsigned 32-bit integer before any depth check, so the
subtraction underflows (a panic under checked arithmetic; a wrap to
`2^32 - 1` under the modular semantics modelled here): the guard
`moves.is_empty()` does not protect it, so with any legal move present the
children are searched at depth `2^32 - 1` — the function is only
well-defined under the unstated precondition `depth >= 1`. -/
theorem claim_C9 (g : Game) (s : g.State) (h : g.legal_moves s ≠ []) :
    u32_wrapping_sub_one 0 = 2 ^ 32 - 1 ∧
    minimax_best_move_ab_depth g s 0 =
      bestLoopAB g s (minimax_value_ab_depth g (2 ^ 32 - 1))
        (g.current_player s == Player.Player1) (sortedMoves g s)
        (if g.current_player s == Player.Player1 then intMin else intMax)
        none intMin intMax := by
  have h0 : u32_wrapping_sub_one 0 = 2 ^ 32 - 1 := by
    unfold u32_wrapping_sub_one
    norm_num
  refine ⟨h0, ?_⟩
  have hne : ¬((g.legal_moves s).isEmpty = true) := by
    cases hL : g.legal_moves s with
    | nil => exact absurd hL h
    | cons a l => exact Bool.false_ne_true
  unfold minimax_best_move_ab_depth minimax_best_move_ab_depth_inner
  rw [if_neg hne, h0]

/-- C9 witness: a concrete non-terminal Tic-Tac-Toe state with legal moves,
on which the depth-0 best-move call dispatches a depth `2^32 - 1` search. -/
theorem claim_C9_witness :
    u32_wrapping_sub_one 0 = 2 ^ 32 - 1 ∧
    minimax_best_move_ab_depth tttGame tttP2State 0 =
      bestLoopAB tttGame tttP2State
        (minimax_value_ab_depth tttGame (2 ^ 32 - 1))
        (tttGame.current_player tttP2State == Player.Player1)
        (sortedMoves tttGame tttP2State)
        (if tttGame.current_player tttP2State == Player.Player1
          then intMin else intMax)
        none intMin intMax :=
  claim_C9 tttGame tttP2State
    (fun h0 => (by decide : ¬(TicTacToeState.legal_moves tttP2State = [])) h0)
